import Mathlib

/-!
Verification of the jobsearch scrape-extract-normalize-dedup pipeline.

This file gives a shallow embedding, in Lean, of the core of the
repository: URL normalization (`backend/rules/common.py`), the exclusion
filter (`backend/rules/filters.py`), the dedup/persistence gateway and run
orchestrator (`backend/scraper/pipeline.py` against the column set of
`backend/db/models.py`), the XING adapter (`backend/rules/aggregators/xing.py`)
and the browser engine (`backend/scraper/engine.py`), together with theorems
settling the behavioural claims about them.

Python strings are modelled as `List Char` (wrapped in `String` at the
interfaces).  `normalize_url` calls into `urllib.parse`; those library
functions (`urlparse`, `parse_qs`, `urlencode`, `urlunparse`, `quote_plus`,
`unquote`) are translated here from the CPython 3.11 sources, since their
behaviour is what the repository function actually computes.  Modelling
decisions, noted where they occur: the raise-only validation of bracketed
IPv6 netlocs and the NFKC netloc check are omitted (they only abort, never
change a result); `\w`, `\s`, case folding and `str.lower` are modelled at
ASCII level (all pattern literals in the repository are ASCII).
-/

namespace JobSearch

/-! ## Generic list-of-char splitting helpers (Python `str.find`/`split`) -/

/-- Split at the first occurrence of `sep`: `some (before, after)`, the
separator excluded, or `none` when `sep` does not occur.  This is Python
`s.split(sep, 1)` when it succeeds. -/
def splitFirst (sep : Char) : List Char → Option (List Char × List Char)
  | [] => none
  | c :: cs =>
    if c == sep then some ([], cs)
    else match splitFirst sep cs with
      | none => none
      | some (a, b) => some (c :: a, b)

/-- Split at the last occurrence of `sep` (Python `rfind`): `some (before, after)`
with `sep` in neither the separator position nor `after`. -/
def splitLast (sep : Char) (l : List Char) : Option (List Char × List Char) :=
  match splitFirst sep l.reverse with
  | none => none
  | some (a, b) => some (b.reverse, a.reverse)

/-- Python `s.split(sep)`: always at least one piece. -/
def splitAllSep (sep : Char) : List Char → List (List Char)
  | [] => [[]]
  | c :: cs =>
    if c == sep then [] :: splitAllSep sep cs
    else match splitAllSep sep cs with
      | [] => [[c]]
      | p :: ps => (c :: p) :: ps

/-- Strip all trailing `'/'` characters: Python `s.rstrip("/")`. -/
def rstripSlash (l : List Char) : List Char :=
  (l.reverse.dropWhile (fun c => c == '/')).reverse

/-! ## Percent-encoding (`urllib.parse.quote_plus` / `unquote`), CPython 3.11 -/

/-- The `_ALWAYS_SAFE` set of `urllib.parse`: ASCII alphanumerics and `_.-~`. -/
def alwaysSafeC (c : Char) : Bool :=
  c.isAlphanum || c == '_' || c == '.' || c == '-' || c == '~'

/-- Uppercase hex digit for `n < 16`, as used by `quote` (`'%%%02X'`). -/
def hexUpper (n : Nat) : Char :=
  if n < 10 then Char.ofNat (48 + n) else Char.ofNat (55 + n)

/-- UTF-8 encoding of a scalar value (Python `str.encode('utf-8')`, per char). -/
def utf8Bytes (n : Nat) : List Nat :=
  if n < 0x80 then [n]
  else if n < 0x800 then [0xC0 + n / 64, 0x80 + n % 64]
  else if n < 0x10000 then
    [0xE0 + n / 4096, 0x80 + (n / 64) % 64, 0x80 + n % 64]
  else
    [0xF0 + n / 262144, 0x80 + (n / 4096) % 64, 0x80 + (n / 64) % 64, 0x80 + n % 64]

/-- Percent-encode one character: each UTF-8 byte as `%XX`. -/
def pctEncChar (c : Char) : List Char :=
  (utf8Bytes c.toNat).flatMap (fun b => ['%', hexUpper (b / 16), hexUpper (b % 16)])

/-- `urllib.parse.quote(s, safe=extraSafe)` on a str: safe characters are kept,
all others percent-encoded from their UTF-8 bytes. -/
def quoteM (extraSafe : List Char) (s : List Char) : List Char :=
  s.flatMap (fun c => if alwaysSafeC c || extraSafe.contains c then [c] else pctEncChar c)

/-- `urllib.parse.quote_plus(s, safe='')`: if the string has a space, quote with
space safe and then turn spaces into `'+'`; otherwise plain quote. -/
def quotePlusM (s : List Char) : List Char :=
  if s.contains ' ' then
    (quoteM [' '] s).map (fun c => if c == ' ' then '+' else c)
  else quoteM [] s

/-- Python `string.hexdigits` membership (both cases accepted by `unquote`). -/
def isHexC (c : Char) : Bool :=
  ('0' ≤ c && c ≤ '9') || ('A' ≤ c && c ≤ 'F') || ('a' ≤ c && c ≤ 'f')

/-- Value of a hex digit. -/
def hexValC (c : Char) : Nat :=
  if c ≤ '9' then c.toNat - 48 else if c ≤ 'F' then c.toNat - 55 else c.toNat - 87

/-- Tokenize for `unquote`: each valid `%XX` becomes a byte token, everything
else is a literal character token (a `%` not followed by two hex digits stays
literal, as in `unquote_to_bytes`). -/
def pctToks : List Char → List (Sum Char Nat)
  | [] => []
  | '%' :: h1 :: h2 :: rest =>
    if isHexC h1 && isHexC h2 then
      Sum.inr (hexValC h1 * 16 + hexValC h2) :: pctToks rest
    else Sum.inl '%' :: pctToks (h1 :: h2 :: rest)
  | c :: rest => Sum.inl c :: pctToks rest

/-- U+FFFD, the replacement character used by `errors='replace'`. -/
def replChar : Char := Char.ofNat 0xFFFD

/-- UTF-8 continuation byte. -/
def contB (b : Nat) : Bool := 0x80 ≤ b && b ≤ 0xBF

/-- Valid second byte for a three-byte lead (W3C maximal-subpart ranges used
by CPython's `errors='replace'` decoder). -/
def cont3ok (b b2 : Nat) : Bool :=
  if b == 0xE0 then 0xA0 ≤ b2 && b2 ≤ 0xBF
  else if b == 0xED then 0x80 ≤ b2 && b2 ≤ 0x9F
  else contB b2

/-- Valid second byte for a four-byte lead. -/
def cont4ok (b b2 : Nat) : Bool :=
  if b == 0xF0 then 0x90 ≤ b2 && b2 ≤ 0xBF
  else if b == 0xF4 then 0x80 ≤ b2 && b2 ≤ 0x8F
  else contB b2

/-- Decode the token stream: literal characters pass through, maximal runs of
byte tokens are decoded as UTF-8 with replacement of maximal invalid
subparts (the behaviour of `bytes.decode('utf-8', 'replace')` applied by
`unquote` to each percent-decoded chunk).  Recursion is by fuel; each step
emits exactly one character and consumes at least one token, so fuel equal
to the token count always suffices (`unqDec` below supplies it). -/
def unqDecF : Nat → List (Sum Char Nat) → List Char
  | 0, _ => []
  | _, [] => []
  | fuel + 1, Sum.inl c :: rest => c :: unqDecF fuel rest
  | fuel + 1, Sum.inr b :: rest =>
    if b < 0x80 then Char.ofNat b :: unqDecF fuel rest
    else if 0xC2 ≤ b && b ≤ 0xDF then
      match rest with
      | Sum.inr b2 :: rest2 =>
        if contB b2 then Char.ofNat ((b - 0xC0) * 64 + (b2 - 0x80)) :: unqDecF fuel rest2
        else replChar :: unqDecF fuel rest
      | _ => replChar :: unqDecF fuel rest
    else if 0xE0 ≤ b && b ≤ 0xEF then
      match rest with
      | Sum.inr b2 :: rest2 =>
        if cont3ok b b2 then
          match rest2 with
          | Sum.inr b3 :: rest3 =>
            if contB b3 then
              Char.ofNat ((b - 0xE0) * 4096 + (b2 - 0x80) * 64 + (b3 - 0x80)) :: unqDecF fuel rest3
            else replChar :: unqDecF fuel rest2
          | _ => replChar :: unqDecF fuel rest2
        else replChar :: unqDecF fuel rest
      | _ => replChar :: unqDecF fuel rest
    else if 0xF0 ≤ b && b ≤ 0xF4 then
      match rest with
      | Sum.inr b2 :: rest2 =>
        if cont4ok b b2 then
          match rest2 with
          | Sum.inr b3 :: rest3 =>
            if contB b3 then
              match rest3 with
              | Sum.inr b4 :: rest4 =>
                if contB b4 then
                  Char.ofNat ((b - 0xF0) * 262144 + (b2 - 0x80) * 4096 +
                    (b3 - 0x80) * 64 + (b4 - 0x80)) :: unqDecF fuel rest4
                else replChar :: unqDecF fuel rest3
              | _ => replChar :: unqDecF fuel rest3
            else replChar :: unqDecF fuel rest2
          | _ => replChar :: unqDecF fuel rest2
        else replChar :: unqDecF fuel rest
      | _ => replChar :: unqDecF fuel rest
    else replChar :: unqDecF fuel rest

/-- Token-stream decode with sufficient fuel. -/
def unqDec (l : List (Sum Char Nat)) : List Char := unqDecF l.length l

/-- The token stream a quoted character contributes: itself when safe, its
UTF-8 bytes otherwise (specification device for the round-trip proofs). -/
def tokEnc (sp : Char → Bool) (c : Char) : List (Sum Char Nat) :=
  if sp c then [Sum.inl c] else (utf8Bytes c.toNat).map Sum.inr

/-- Token stream of a whole quoted string. -/
def toksEnc (sp : Char → Bool) (s : List Char) : List (Sum Char Nat) :=
  s.flatMap (tokEnc sp)

/-- `urllib.parse.unquote(s, encoding='utf-8', errors='replace')`. -/
def unquoteM (l : List Char) : List Char := unqDec (pctToks l)

/-- `unquote_plus`: parse_qsl first replaces `'+'` with `' '`, then unquotes. -/
def unquotePlusM (l : List Char) : List Char :=
  unquoteM (l.map (fun c => if c == '+' then ' ' else c))

/-! ## Query strings (`parse_qsl` / `parse_qs` / `urlencode`), CPython 3.11 -/

/-- `parse_qsl(qs)` with default arguments: split on `'&'`, skip empty pieces,
skip pieces without `'='`, drop blank values, percent-decode names and
values. -/
def parseQslM (qs : List Char) : List (List Char × List Char) :=
  let pieces := if qs.isEmpty then [] else splitAllSep '&' qs
  pieces.filterMap (fun nv =>
    if nv.isEmpty then none
    else match splitFirst '=' nv with
      | none => none
      | some (n, v) =>
        if v.isEmpty then none
        else some (unquotePlusM n, unquotePlusM v))

/-- Insert one pair into the grouped dict, preserving first-occurrence key
order and appending to the value list of an existing key (`parse_qs` dict). -/
def addQsPair (acc : List (List Char × List (List Char))) (k v : List Char) :
    List (List Char × List (List Char)) :=
  if acc.any (fun kv => kv.1 == k) then
    acc.map (fun kv => if kv.1 == k then (kv.1, kv.2 ++ [v]) else kv)
  else acc ++ [(k, [v])]

/-- `parse_qs(qs)`: group the `parse_qsl` pairs into an ordered dict. -/
def parseQsM (qs : List Char) : List (List Char × List (List Char)) :=
  (parseQslM qs).foldl (fun acc p => addQsPair acc p.1 p.2) []

/-- `urlencode(d, doseq=True)` over an ordered dict with list values, with the
default `quote_via=quote_plus`. -/
def urlencodeM (d : List (List Char × List (List Char))) : List Char :=
  List.intercalate ['&']
    (d.flatMap (fun kv => kv.2.map (fun v => quotePlusM kv.1 ++ '=' :: quotePlusM v)))


/-- The flat (key, value) pair sequence a grouped dict encodes (specification
device for the query round-trip proofs). -/
def pairsFlat (d : List (List Char × List (List Char))) : List (List Char × List Char) :=
  d.flatMap (fun kv => kv.2.map (fun v => (kv.1, v)))

/-- Well-formedness of a grouped query dict as produced by `parse_qs`:
distinct keys and nonempty lists of nonempty values. -/
def QsWf (d : List (List Char × List (List Char))) : Prop :=
  (d.map Prod.fst).Nodup ∧ ∀ kv ∈ d, kv.2 ≠ [] ∧ ∀ v ∈ kv.2, v ≠ []

/-! ## URL splitting (`urlsplit` / `urlparse` / `urlunparse`), CPython 3.11 -/

/-- `scheme_chars` of `urllib.parse`. -/
def isSchemeChar (c : Char) : Bool := c.isAlphanum || c == '+' || c == '-' || c == '.'

/-- `uses_params` of `urllib.parse` (3.11.6). -/
def usesParams : List (List Char) :=
  (["", "ftp", "hdl", "prospero", "http", "imap", "https", "shttp", "rtsp",
    "rtsps", "rtspu", "sip", "sips", "mms", "sftp", "tel"]).map String.data

/-- `uses_netloc` of `urllib.parse` (3.11.6). -/
def usesNetloc : List (List Char) :=
  (["", "ftp", "http", "gopher", "nntp", "telnet", "imap", "wais", "file",
    "mms", "https", "shttp", "snews", "prospero", "rtsp", "rtsps", "rtspu",
    "rsync", "svn", "svn+ssh", "sftp", "nfs", "git", "git+ssh", "ws",
    "wss"]).map String.data

/-- `urlsplit` input cleaning: lstrip WHATWG C0-control-or-space, then remove
every tab, carriage return and line feed. -/
def pyClean (u : List Char) : List Char :=
  (u.dropWhile (fun c => c.toNat ≤ 0x20)).filter
    (fun c => !(c == Char.ofNat 9 || c == Char.ofNat 10 || c == Char.ofNat 13))

/-- The scheme extraction step of `urlsplit`: the part before the first `':'`
becomes the (lowercased) scheme when it is nonempty, starts with an ASCII
letter and consists of scheme characters only. -/
def schemeSplit (u : List Char) : List Char × List Char :=
  match splitFirst ':' u with
  | none => ([], u)
  | some (pre, post) =>
    match pre with
    | [] => ([], u)
    | c :: _ =>
      if c.isAlpha && pre.all isSchemeChar then (pre.map Char.toLower, post)
      else ([], u)

/-- Not one of the netloc delimiters `/?#`. -/
def notDelim (c : Char) : Bool := !(c == '/' || c == '?' || c == '#')

/-- Result of `urlsplit`. -/
structure SplitRes where
  scheme : List Char
  netloc : List Char
  path : List Char
  query : List Char
  frag : List Char
deriving DecidableEq, Repr

/-- `urlsplit(url)` with `allow_fragments=True`.  The raise-only validations
(`Invalid IPv6 URL`, `_checknetloc` NFKC) are omitted: they never alter a
returned result. -/
def urlsplitM (u0 : List Char) : SplitRes :=
  let u1 := pyClean u0
  let sp := schemeSplit u1
  let s := sp.1
  let u2 := sp.2
  let hasNl := u2.take 2 == ['/', '/']
  let nl := if hasNl then (u2.drop 2).takeWhile notDelim else []
  let u3 := if hasNl then (u2.drop 2).dropWhile notDelim else u2
  let pf := splitFirst '#' u3
  let u4 := match pf with | some p => p.1 | none => u3
  let f := match pf with | some p => p.2 | none => []
  let pq := splitFirst '?' u4
  let p := match pq with | some pr => pr.1 | none => u4
  let q := match pq with | some pr => pr.2 | none => []
  ⟨s, nl, p, q, f⟩

/-- `_splitparams(url)` (only ever called when `';' in url`). -/
def splitParamsM (url : List Char) : List Char × List Char :=
  if url.contains '/' then
    match splitLast '/' url with
    | some (pre, suf) =>
      match splitFirst ';' suf with
      | some (a, b) => (pre ++ '/' :: a, b)
      | none => (url, [])
    | none => (url, [])
  else
    match splitFirst ';' url with
    | some (a, b) => (a, b)
    | none => (url, [])

/-- Result of `urlparse`. -/
structure ParseRes where
  scheme : List Char
  netloc : List Char
  path : List Char
  params : List Char
  query : List Char
  frag : List Char
deriving DecidableEq, Repr

/-- `urlparse(url)`: split, then separate `;params` from the path for schemes
in `uses_params`. -/
def urlparseM (u : List Char) : ParseRes :=
  let r := urlsplitM u
  if usesParams.contains r.scheme && r.path.contains ';' then
    let pm := splitParamsM r.path
    ⟨r.scheme, r.netloc, pm.1, pm.2, r.query, r.frag⟩
  else ⟨r.scheme, r.netloc, r.path, [], r.query, r.frag⟩

/-- `urlunsplit` (CPython 3.11.6). -/
def urlunsplitM (s nl url0 q f : List Char) : List Char :=
  let url1 :=
    if nl ≠ [] ∨ (s ≠ [] ∧ usesNetloc.contains s ∧ url0.take 2 ≠ ['/', '/']) then
      let url' := if url0 ≠ [] ∧ url0.take 1 ≠ ['/'] then '/' :: url0 else url0
      '/' :: '/' :: (nl ++ url')
    else url0
  let url2 := if s ≠ [] then s ++ ':' :: url1 else url1
  let url3 := if q ≠ [] then url2 ++ '?' :: q else url2
  if f ≠ [] then url3 ++ '#' :: f else url3

/-- `urlunparse`: reattach `;params`, then unsplit. -/
def urlunparseM (s nl path params q f : List Char) : List Char :=
  urlunsplitM s nl (if params ≠ [] then path ++ ';' :: params else path) q f

/-! ## `normalize_url` (`backend/rules/common.py`, lines 220-239) -/

/-- `_TRACKING_PARAMS` of `backend/rules/common.py`. -/
def trackingParams : List (List Char) :=
  (["utm_source", "utm_medium", "utm_campaign", "utm_term", "utm_content",
    "fbclid", "gclid", "ref", "refId", "trackingId", "trk"]).map String.data

/-- `normalize_url` on character lists: strip tracking params and fragments
for dedup comparison. -/
def normalizeUrlList (u : List Char) : List Char :=
  if u.isEmpty then [] else
  let pr := urlparseM u
  let params := parseQsM pr.query
  let cleaned := params.filter (fun kv => !(trackingParams.contains kv.1))
  urlunparseM pr.scheme pr.netloc (rstripSlash pr.path) pr.params
    (if cleaned.isEmpty then [] else urlencodeM cleaned) []

/-- `normalize_url(url)` of `backend/rules/common.py`. -/
def normalize_url (u : String) : String := ⟨normalizeUrlList u.data⟩

/-- Substring test for a run of three slashes. -/
def hasTriSlash : List Char → Bool
  | '/' :: '/' :: '/' :: _ => true
  | _ :: rest => hasTriSlash rest
  | [] => false

/-- Domain on which idempotence of `normalize_url` is asserted (claim C4 as
amended): after `urlsplit` input cleaning the URL contains no `';'` (the
`;params` path syntax interacts with trailing-slash stripping), no `'['` or
`']'` (bracket netlocs can make the second parse raise), and no `"///"`
(runs of slashes collapse by one netloc absorption per pass). -/
def urlOkC4 (u : String) : Bool :=
  let cu := pyClean u.data
  !(cu.contains ';') && !(cu.contains '[') && !(cu.contains ']') && !(hasTriSlash cu)

/-! ## Exclusion filter (`backend/rules/filters.py`)

The three `EXCLUDE_PATTERNS` regexes are alternations of literal words with
`\b` on both sides and `re.IGNORECASE` (one alternative, `working\s*student`,
has two words joined by `\s*`).  They are embedded directly: a pattern is a
list of alternatives, an alternative a list of words joined by optional
whitespace.  `\w`, `\s` and case folding are modelled at ASCII level — every
pattern literal is ASCII. -/

/-- Word character for `\b` (ASCII part of Python `\w`). -/
def isWordCharB (c : Char) : Bool := c.isAlphanum || c == '_'

/-- Whitespace for `\s` (ASCII part). -/
def isSpaceB (c : Char) : Bool :=
  c == ' ' || c == '\t' || c == '\n' || c == Char.ofNat 13 ||
  c == Char.ofNat 12 || c == Char.ofNat 11

/-- Case-insensitive literal match at the head; returns the remainder. -/
def litMatch : List Char → List Char → Option (List Char)
  | [], rest => some rest
  | _ :: _, [] => none
  | p :: ps, d :: ds => if p.toLower == d.toLower then litMatch ps ds else none

/-- Match words joined by `\s*` at the head; returns the remainder. -/
def tokMatch : List (List Char) → List Char → Option (List Char)
  | [], rest => some rest
  | [w], rest => litMatch w rest
  | w :: ws, rest =>
    match litMatch w rest with
    | none => none
    | some r => tokMatch ws (r.dropWhile isSpaceB)

/-- One pattern: the alternatives of the alternation. -/
abbrev RePat := List (List (List Char))

/-- Does some alternative match at this position, with a word boundary after
it?  (The boundary before the match is checked by the caller; every
alternative begins with a word character.) -/
def altMatchAt (alts : RePat) (s : List Char) : Bool :=
  alts.any (fun a =>
    match tokMatch a s with
    | none => false
    | some [] => true
    | some (d :: _) => !isWordCharB d)

/-- `pattern.search(text)`: try each position whose predecessor is not a word
character. -/
def reSearchAux (alts : RePat) : Bool → List Char → Bool
  | _, [] => false
  | prevW, c :: cs =>
    (if prevW then false else altMatchAt alts (c :: cs)) ||
      reSearchAux alts (isWordCharB c) cs

/-- `pattern.search(text) is not None`. -/
def reSearch (alts : RePat) (text : List Char) : Bool := reSearchAux alts false text

/-- `EXCLUDE_PATTERNS` (filters.py lines 47-51). -/
def EXCLUDE_PATTERNS : List RePat :=
  [ [["internship".data], ["praktikum".data], ["werkstudent".data],
     ["working".data, "student".data], ["pflichtpraktikum".data]],
    [["junior".data], ["trainee".data], ["azubi".data], ["ausbildung".data]],
    [["unpaid".data], ["volunteer".data], ["ehrenamt".data]] ]

/-- `matches_filters(title, description, location, company)` (filters.py
lines 74-85): return True iff no EXCLUDE pattern matches the title; the
other three arguments are not consulted. -/
def matches_filters (title description location company : String) : Bool :=
  if EXCLUDE_PATTERNS.any (fun p => reSearch p title.data) then false else true

/-- Case-insensitive substring scan (helper for the claim-side predicate). -/
def subSearch (needle : List Char) : List Char → Bool
  | [] => needle.isEmpty
  | c :: cs => needle.isPrefixOf (c :: cs) || subSearch needle cs

/-- Case-insensitive substring containment. -/
def containsCI (hay needle : String) : Bool :=
  subSearch (needle.data.map Char.toLower) (hay.data.map Char.toLower)

/-- CLAIM-side definition, written from the words of claim C2 rather than the
source: the title "contains Junior, Praktikum, Werkstudent, or Trainee
(case-insensitive)" as a substring. -/
def claimC2TitleTerm (t : String) : Bool :=
  containsCI t "Junior" || containsCI t "Praktikum" ||
    containsCI t "Werkstudent" || containsCI t "Trainee"

/-- Whole-word, case-insensitive occurrence of `w` in `t` (the `\bw\b`
reading). -/
def hasWordCI (t w : String) : Bool := reSearch [[w.data]] t.data

/-! ## Data model (`backend/rules/models.py`, `backend/db/models.py`)

`JobListing` is the parser-output dataclass.  `Job` carries exactly the
mapped columns of `db/models.py` that the pipeline writes (`raw_data` as an
association list, timestamps abstracted away).  A `Db` is the committed
`jobs` table plus the primary-key sequence (PostgreSQL serial, starting
at 1). -/

structure JobListing where
  title : String
  company : String
  url : String
  source_site : String
  location : String := ""
  description : String := ""
  salary : String := ""
  job_type : String := ""
  remote : String := ""
  posted_date : String := ""
  raw_data : List (String × String) := []
deriving DecidableEq, Repr

structure Job where
  id : Nat
  run_id : Option Nat
  title : String
  company : String
  location : String
  url : String
  description : String
  salary : String
  job_type : String
  remote : String
  posted_date : Option String
  source_site : String
  extraction_method : String
  raw_data : List (String × String)
deriving DecidableEq, Repr

structure Db where
  jobs : List Job
  nextId : Nat
deriving DecidableEq, Repr

def emptyDb : Db := ⟨[], 1⟩

/-- Well-formed committed table: serial ids are positive and the unique
constraint on `url` (`db/models.py` line 31) holds. -/
def dbWf (db : Db) : Prop :=
  1 ≤ db.nextId ∧ (∀ j ∈ db.jobs, 1 ≤ j.id) ∧ (db.jobs.map Job.url).Nodup

/-- Shape acceptance standing in for `datetime.fromisoformat`: a
`YYYY-MM-DD` string (calendar-range validation abstracted; this value only
feeds the optional `posted_date` column, which no claim consults). -/
def fromIsoOk (s : String) : Bool :=
  match s.data with
  | [y1, y2, y3, y4, d1, m1, m2, d2, a1, a2] =>
    y1.isDigit && y2.isDigit && y3.isDigit && y4.isDigit && d1 == '-' &&
      m1.isDigit && m2.isDigit && d2 == '-' && a1.isDigit && a2.isDigit
  | _ => false

/-! ## Dedup & persistence gateway (`pipeline.py` `_insert_listings`) -/

instance {α β : Type} [DecidableEq α] [DecidableEq β] : DecidableEq (Except α β) :=
  fun a b =>
    match a, b with
    | .error x, .error y =>
      if h : x = y then isTrue (congrArg Except.error h)
      else isFalse (fun hh => h (Except.error.inj hh))
    | .ok x, .ok y =>
      if h : x = y then isTrue (congrArg Except.ok h)
      else isFalse (fun hh => h (Except.ok.inj hh))
    | .error _, .ok _ => isFalse (fun hh => Except.noConfusion hh)
    | .ok _, .error _ => isFalse (fun hh => Except.noConfusion hh)

/-- The `Job(...)` row constructed at pipeline.py lines 142-156: the stored
`url` is the normalized one; `posted_date` falls back to `None` on a parse
failure (`try/except ValueError`). -/
def rowOfListing (l : JobListing) (normalized : String) (nid : Nat)
    (run_id : Option Nat) (method : String) : Job :=
  { id := nid, run_id := run_id, title := l.title, company := l.company,
    location := l.location, url := normalized, description := l.description,
    salary := l.salary, job_type := l.job_type, remote := l.remote,
    posted_date := if l.posted_date ≠ "" && fromIsoOk l.posted_date then some l.posted_date else none,
    source_site := l.source_site, extraction_method := method,
    raw_data := l.raw_data }

/-- The per-listing loop of `_insert_listings` (pipeline.py lines 126-158).
The session is created with `autoflush=False` (`db/connection.py` line 9),
so the existence SELECT sees only `committed` rows: rows `session.add`ed in
this very batch stay pending and invisible to it.  `scalar_one_or_none`
raises when more than one row matches; Python truthiness of `existing`
(the selected id) treats an id of 0 like a miss. -/
def insertLoop (committed : List Job) (run_id : Option Nat) (method : String) :
    List JobListing → List Job → Nat → Nat → Except String (List Job × Nat × Nat)
  | [], pending, count, nid => .ok (pending, count, nid)
  | l :: rest, pending, count, nid =>
    let normalized := normalize_url l.url
    match committed.filter (fun j => j.url == normalized) with
    | [] =>
      insertLoop committed run_id method rest
        (pending ++ [rowOfListing l normalized nid run_id method]) (count + 1) (nid + 1)
    | [j] =>
      if j.id ≠ 0 then insertLoop committed run_id method rest pending count nid
      else
        insertLoop committed run_id method rest
          (pending ++ [rowOfListing l normalized nid run_id method]) (count + 1) (nid + 1)
    | _ => .error "MultipleResultsFound"

/-- Uniqueness of the pending batch at commit time: each pending URL must
collide neither with a committed row nor with a later pending row. -/
def pendingUrlsOk (committed : List Job) : List Job → Bool
  | [] => true
  | p :: ps =>
    !(committed.any (fun j => j.url == p.url)) &&
      !(ps.any (fun j => j.url == p.url)) && pendingUrlsOk committed ps

/-- `_insert_listings(session, listings, run_id, method)` (pipeline.py lines
123-162).  `session.commit()` runs only when `new_count` is nonzero; it
raises `IntegrityError` when the pending rows violate the unique constraint
on `jobs.url`, in which case nothing from the batch is persisted. -/
def _insert_listings (db : Db) (listings : List JobListing)
    (run_id : Option Nat) (method : String) : Except String (Nat × Db) :=
  match insertLoop db.jobs run_id method listings [] 0 db.nextId with
  | .error e => .error e
  | .ok (pending, count, nid) =>
    if count ≠ 0 then
      if pendingUrlsOk db.jobs pending then .ok (count, ⟨db.jobs ++ pending, nid⟩)
      else .error "IntegrityError: duplicate key value violates unique constraint"
    else .ok (count, db)

/-! ## Run orchestrator (`pipeline.py` `run_scrape`)

A site is summarised by the outcome of its `fetch_and_parse` call (the page
plumbing around it is inside the same `try`).  The run record keeps the
mapped `scrape_runs` columns of `db/models.py` (lines 61-76) in `RunCols`;
note that the model has `jobs_matched` and **no** `jobs_excluded` column, so
the assignment `run.jobs_excluded = total_excluded` at pipeline.py line 109
lands on a plain, unmapped instance attribute, modelled by the separate
`jobsExcludedAttr` field; persisting keeps only `cols`.  `statusHistory`
records every assignment to `status`. -/

structure SiteInput where
  name : String
  fetchParse : Except String (List JobListing)
deriving Repr

structure RunCols where
  status : String
  sites_scraped : Nat
  jobs_found : Nat
  jobs_matched : Nat
  jobs_new : Nat
  errors : Option (List (String × String))
  completedSet : Bool
deriving DecidableEq, Repr

def runColsInit : RunCols :=
  { status := "running", sites_scraped := 0, jobs_found := 0, jobs_matched := 0,
    jobs_new := 0, errors := none, completedSet := false }

structure PyRun where
  cols : RunCols
  jobsExcludedAttr : Option Nat
  statusHistory : List String
deriving DecidableEq, Repr

/-- What `session.commit()` persists of the run object: the mapped columns
only.  The unmapped `jobs_excluded` attribute is silently dropped. -/
def persistRun (r : PyRun) : RunCols := r.cols

structure LoopSt where
  found : Nat
  excluded : Nat
  new : Nat
  errors : List (String × String)
  db : Db
  insertCalls : Nat
  broken : Bool
deriving DecidableEq, Repr

/-- One iteration of the site loop (pipeline.py lines 68-101).  Both the
fetch/parse call and `_insert_listings` sit inside the same `try`; an
exception from either is recorded as `{site, error}` and the loop proceeds.
After a failed commit the SQLAlchemy session is invalidated, so every later
DB use in this run raises `PendingRollbackError` (tracked by `broken`). -/
def scrapeStep (dry_run : Bool) (run_id : Option Nat) (st : LoopSt)
    (site : SiteInput) : LoopSt :=
  match site.fetchParse with
  | .error e => { st with errors := st.errors ++ [(site.name, e)] }
  | .ok listings =>
    let to_store := listings.filter
      (fun l => matches_filters l.title l.description l.location l.company)
    let st1 := { st with
      found := st.found + listings.length,
      excluded := st.excluded + (listings.length - to_store.length) }
    if dry_run then st1
    else if st1.broken then
      { st1 with errors := st1.errors ++ [(site.name, "PendingRollbackError")],
                 insertCalls := st1.insertCalls + 1 }
    else
      match _insert_listings st1.db to_store run_id "css" with
      | .ok (c, db2) =>
        { st1 with new := st1.new + c, db := db2, insertCalls := st1.insertCalls + 1 }
      | .error e =>
        { st1 with errors := st1.errors ++ [(site.name, e)],
                   insertCalls := st1.insertCalls + 1, broken := true }

/-- Listings parsed from one site (0 when its fetch/parse raised). -/
def siteFound (site : SiteInput) : Nat :=
  match site.fetchParse with
  | .error _ => 0
  | .ok listings => listings.length

/-- Listings of one site rejected by the EXCLUDE filter. -/
def siteExcluded (site : SiteInput) : Nat :=
  match site.fetchParse with
  | .error _ => 0
  | .ok listings =>
    listings.length - (listings.filter (fun l =>
      matches_filters l.title l.description l.location l.company)).length

/-- The error entry a failing site contributes. -/
def siteErrD (site : SiteInput) : List (String × String) :=
  match site.fetchParse with
  | .error e => [(site.name, e)]
  | .ok _ => []

structure ScrapeOut where
  run : Option PyRun
  found : Nat
  excluded : Nat
  new : Nat
  errors : List (String × String)
  db : Db
  insertCalls : Nat
deriving DecidableEq, Repr

/-- `run_scrape(site_names, search_config, dry_run)` (pipeline.py lines
27-120), over the already-instantiated sites.  With no sites it returns
early; in dry-run mode no session and no run record exist and the stores
are skipped.  Finalization (lines 104-113) sets the end timestamp, writes
`"completed"` to `status` — the expression is literally
`"completed" if not errors else "completed"` — fills the aggregate counts,
assigns the unmapped `jobs_excluded` attribute, and commits. -/
def run_scrape (sites : List SiteInput) (dry_run : Bool) (db0 : Db) : ScrapeOut :=
  if sites.isEmpty then ⟨none, 0, 0, 0, [], db0, 0⟩
  else
    let run0 : Option PyRun :=
      if dry_run then none else some ⟨runColsInit, none, ["running"]⟩
    let run_id : Option Nat := if dry_run then none else some 1
    let fin := sites.foldl (scrapeStep dry_run run_id)
      ⟨0, 0, 0, [], db0, 0, false⟩
    let run1 := run0.map (fun r =>
      { cols := { status := if fin.errors.isEmpty then "completed" else "completed",
                  sites_scraped := sites.length,
                  jobs_found := fin.found,
                  jobs_matched := r.cols.jobs_matched,
                  jobs_new := fin.new,
                  errors := if fin.errors.isEmpty then none else some fin.errors,
                  completedSet := true },
        jobsExcludedAttr := some fin.excluded,
        statusHistory := r.statusHistory ++ ["completed"] })
    ⟨run1, fin.found, fin.excluded, fin.new, fin.errors, fin.db, fin.insertCalls⟩

/-! ## XING adapter (`backend/rules/aggregators/xing.py`)

The bs4/regex extraction inside `parse` is abstracted one level: an HTML
blob is modelled as the list of job cards it contains
(`soup.select('[data-testid="job-search-result"]')`), each card carrying
the values the per-card selectors and regexes would extract (`h2` text,
first `a` href, company/location/salary/posted-date captures, empty string
when absent).  Concatenating blobs ("\n".join of page contents) is list
concatenation.  What is kept exact is the control flow: the skip conditions,
`urljoin`, the mutable `self.seen_urls` set, the constructed `JobListing`,
and the `try/except` structure of `fetch`. -/

structure XingCard where
  title : String
  href : String
  company : String
  location : String
  salary : String
  posted_date : String
deriving DecidableEq, Repr

/-- Character-level prefix test (Python `str.startswith`). -/
def strStarts (pre s : String) : Bool := pre.data.isPrefixOf s.data

/-- `urljoin('https://www.xing.com', href)` for the href shapes that occur:
absolute URLs pass through, otherwise the path is resolved against the
host. -/
def urljoinXing (href : String) : String :=
  if strStarts "http://" href || strStarts "https://" href then href
  else if strStarts "/" href then "https://www.xing.com" ++ href
  else "https://www.xing.com/" ++ href

/-- `Xing.parse(html)` (xing.py lines 106-186) against the instance state
`self.seen_urls`: cards without title or href are skipped; a URL already in
`seen_urls` is skipped; otherwise the URL is added to `seen_urls` and a
listing is emitted.  Returns the listings and the updated set. -/
def xingParse : List XingCard → List String → List JobListing × List String
  | [], seen => ([], seen)
  | card :: rest, seen =>
    if card.title == "" || card.href == "" then xingParse rest seen
    else
      let url := urljoinXing card.href
      if seen.contains url then xingParse rest seen
      else
        let out := xingParse rest (url :: seen)
        ({ title := card.title, company := card.company, url := url,
           source_site := "xing", location := card.location,
           description := "",
           raw_data := [("salary", card.salary), ("posted_date", card.posted_date)] }
          :: out.1, out.2)

/-- The browser page as an oracle: the content delivered by `page.goto` of a
search URL (or the exception it raises), and the successive contents after
each successful "Mehr" click on that search. -/
structure XingPage where
  gotoResult : String → Except String (List XingCard)
  mehrPages : String → List (List XingCard)

def NRW_CITIES : List String := ["Cologne", "Dusseldorf", "Dortmund", "Essen", "Bonn"]

def KEYWORDS : List String := ["data", "ai", "analytics"]

def MAX_LOADS : Nat := 5

/-- The searches list of `Xing.fetch`: the five cities, then full-remote. -/
def xingSearchSpecs : List (Option String) := NRW_CITIES.map some ++ [none]

/-- The search URL built at xing.py lines 74-77 (`quote` is the identity on
these ASCII keywords and city names). -/
def xingUrl (spec : Option String) (kw : String) : String :=
  match spec with
  | some city =>
    "https://www.xing.com/jobs/search?keywords=" ++ kw ++ "&location=" ++ city
  | none =>
    "https://www.xing.com/jobs/search?keywords=" ++ kw ++ "&workplace=full-remote"

/-- `if self.max_searches and search_count >= self.max_searches` (Python
truthiness: `max_searches=0` never stops). -/
def maxStop (maxS : Option Nat) (count : Nat) : Bool :=
  match maxS with
  | none => false
  | some m => if m == 0 then false else decide (m ≤ count)

inductive KwOut where
  | ok (count : Nat) (parts : List (List XingCard))
  | gotoFail (parts : List (List XingCard))

/-- The keyword loop of `Xing.fetch` (lines 69-97).  A navigation failure
escapes to the outer handler (`gotoFail`).  The inner pagination `try`
appends up to `MAX_LOADS - 1` extra contents; when the "Mehr" button wait
raises first, the `except` branch executes `break` — which breaks the
*keyword* loop, skipping `search_count += 1`. -/
def xingKwLoop (o : XingPage) (maxS : Option Nat) (spec : Option String) :
    List String → Nat → List (List XingCard) → KwOut
  | [], count, parts => .ok count parts
  | kw :: rest, count, parts =>
    if maxStop maxS count then .ok count parts
    else
      let url := xingUrl spec kw
      match o.gotoResult url with
      | .error _ => .gotoFail parts
      | .ok content =>
        let extra := (o.mehrPages url).take (MAX_LOADS - 1)
        let parts2 := parts ++ [content] ++ extra
        if (o.mehrPages url).length < MAX_LOADS - 1 then .ok count parts2
        else xingKwLoop o maxS spec rest (count + 1) parts2

/-- The search loop of `Xing.fetch` (lines 64-97). -/
def xingSearchLoop (o : XingPage) (maxS : Option Nat) :
    List (Option String) → Nat → List (List XingCard) → List (List XingCard)
  | [], _, parts => parts
  | spec :: rest, count, parts =>
    if maxStop maxS count then parts
    else
      match xingKwLoop o maxS spec KEYWORDS count parts with
      | .gotoFail parts2 => parts2
      | .ok c parts2 => xingSearchLoop o maxS rest c parts2

/-- `Xing.fetch(page)` (xing.py lines 52-104).  The whole search loop sits in
a `try` whose `except Exception` (line 98) only prints: any error — a
navigation timeout included — is swallowed and the parts accumulated so far
are returned as the joined content.  The function never raises. -/
def xingFetch (o : XingPage) (maxS : Option Nat) : List XingCard :=
  (xingSearchLoop o maxS xingSearchSpecs 0 []).flatten

/-! ## Browser engine (`backend/scraper/engine.py`)

Handles are numbered from a counter; `launched` records every driver or
browser ever started, `closedHandles` every one stopped.  A leaked process
is a launched handle that is never closed and no longer referenced. -/

structure BrowserEngine where
  playwright : Option Nat := none
  browser : Option Nat := none
  nextHandle : Nat := 0
  launched : List Nat := []
  closedHandles : List Nat := []
deriving DecidableEq, Repr

/-- `BrowserEngine.start` (engine.py lines 25-30): unconditionally starts a
fresh playwright driver and launches a fresh browser, overwriting both
references — there is no started-already check. -/
def BrowserEngine.start (e : BrowserEngine) : BrowserEngine :=
  { playwright := some e.nextHandle, browser := some (e.nextHandle + 1),
    nextHandle := e.nextHandle + 2,
    launched := e.launched ++ [e.nextHandle, e.nextHandle + 1],
    closedHandles := e.closedHandles }

/-- `BrowserEngine.stop` (engine.py lines 42-49): closes the current browser
and driver, if any. -/
def BrowserEngine.stop (e : BrowserEngine) : BrowserEngine :=
  let e1 :=
    match e.browser with
    | some b => { e with browser := none, closedHandles := e.closedHandles ++ [b] }
    | none => e
  match e1.playwright with
  | some p => { e1 with playwright := none, closedHandles := e1.closedHandles ++ [p] }
  | none => e1

/-- `BrowserEngine.new_page` (engine.py lines 32-40): raises when not
started. -/
def BrowserEngine.new_page (e : BrowserEngine) : Except String Nat :=
  match e.browser with
  | none => .error "BrowserEngine not started. Call start() or use as context manager."
  | some b => .ok b

/-! ## Concrete fixtures used by counterexamples and witnesses -/

def keptListing : JobListing :=
  { title := "Head of Data", company := "Acme", url := "https://example.com/j/2",
    source_site := "xing" }

def excludedListing : JobListing :=
  { title := "Junior Data Analyst", company := "Acme",
    url := "https://example.com/j/1", source_site := "xing" }

def c7sites : List SiteInput := [⟨"xing", .ok [excludedListing, keptListing]⟩]

def c3sites : List SiteInput :=
  [⟨"xing", .error "Page.goto: Timeout 30000ms exceeded."⟩,
   ⟨"amazon", .error "net::ERR_CONNECTION_RESET"⟩]

def c1Listing : JobListing :=
  { title := "Head of Data", company := "Acme",
    url := "https://example.com/jobs/1?utm_source=feed", source_site := "xing" }

def c10BadListing : JobListing :=
  { title := "Head of Data", company := "Acme", url := "https://h.test/p;/",
    source_site := "xing" }

def c10GoodListing : JobListing :=
  { title := "Head of Data", company := "Acme", url := "https://h.test/p/?ref=1",
    source_site := "xing" }

/-- Stored URLs after inserting the `;`-path listing into an empty table. -/
def c10StoredUrls : List String :=
  match _insert_listings emptyDb [c10BadListing] none "css" with
  | .ok (_, db1) => db1.jobs.map Job.url
  | .error _ => []

/-- A page whose very first navigation times out. -/
def c5FailPage : XingPage :=
  ⟨fun _ => .error "Page.goto: Timeout 30000ms exceeded.", fun _ => []⟩

def c6Card : XingCard :=
  { title := "Head of Data", href := "/jobs/abc", company := "Acme",
    location := "Cologne", salary := "", posted_date := "" }

/-! # Theorems -/

/-! ## C9 — browser engine start -/

/-- C9 counterexample.  The claim asserts that a second consecutive
`start()` is an idempotent no-op — the engine state after two calls equals
the state after one.  On the code (engine.py lines 25-30) `start`
unconditionally launches a new driver and browser: already on a freshly
constructed engine the two states differ. -/
theorem c9_counterexample :
    BrowserEngine.start (BrowserEngine.start {}) ≠ BrowserEngine.start {} := by
  decide

/-- C9 as amended: `start()` is not idempotent.  Each call launches a fresh
driver and browser (two more launched handles), closes nothing, and
overwrites both references, so the browser launched by the first call is no
longer referenced and never closed — it leaks. -/
theorem c9_start_not_idempotent (e : BrowserEngine) :
    (e.start.start).launched.length = e.launched.length + 4 ∧
    e.start.start.closedHandles = e.closedHandles ∧
    e.start.start.browser ≠ e.start.browser ∧
    e.start.start.playwright ≠ e.start.playwright := by
  refine ⟨?_, rfl, ?_, ?_⟩
  · simp [BrowserEngine.start]
  · simp [BrowserEngine.start]
  · simp [BrowserEngine.start]

/-! ## C6 — parse determinism and the `seen_urls` state -/

/-- URLs already seen stay seen through a parse call. -/
theorem xingParse_seen_mono :
    ∀ (cards : List XingCard) (seen : List String) (u : String),
      u ∈ seen → u ∈ (xingParse cards seen).2 := by
  intro cards
  induction cards with
  | nil => intro seen u hu; simpa [xingParse] using hu
  | cons card rest ih =>
    intro seen u hu
    by_cases h1 : card.title == "" || card.href == ""
    · simpa [xingParse, h1] using ih seen u hu
    · by_cases h2 : urljoinXing card.href ∈ seen
      · simpa [xingParse, h1, h2] using ih seen u hu
      · simpa [xingParse, h1, h2] using ih _ u (List.mem_cons_of_mem _ hu)

/-- C6 counterexample.  The claim asserts two calls to `parse` on the same
blob on the same adapter instance return the same sequence.  On the code,
`parse` records every emitted URL in the instance set `self.seen_urls`
(xing.py lines 133-136), so a second parse of the same blob on the same
instance returns a different (empty) list. -/
theorem c6_stateful_counterexample :
    (xingParse [c6Card] ((xingParse [c6Card] []).2)).1 ≠ (xingParse [c6Card] []).1 := by
  decide

/-- C6 as amended: `parse` is a deterministic function of the blob *and* the
instance's `seen_urls` state (so two fresh instances agree), but it is
stateful across calls: re-parsing any blob on the same instance yields no
listings at all and leaves the state unchanged, because every URL the first
call emitted is now in `seen_urls`. -/
theorem c6_second_parse_empty (cards : List XingCard) (seen : List String) :
    xingParse cards (xingParse cards seen).2 = ([], (xingParse cards seen).2) := by
  induction cards generalizing seen with
  | nil => simp [xingParse]
  | cons card rest ih =>
    by_cases h1 : card.title == "" || card.href == ""
    · simpa [xingParse, h1] using ih seen
    · by_cases h2 : urljoinXing card.href ∈ seen
      · have hin : urljoinXing card.href ∈ (xingParse rest seen).2 :=
          xingParse_seen_mono rest seen _ h2
        simpa [xingParse, h1, h2, hin] using ih seen
      · have hin : urljoinXing card.href ∈ (xingParse rest (urljoinXing card.href :: seen)).2 :=
          xingParse_seen_mono rest _ _ (List.mem_cons_self _ _)
        simpa [xingParse, h1, h2, hin] using ih (urljoinXing card.href :: seen)

/-! ## C5 — fetch failures are swallowed by `Xing.fetch` -/

/-- C5 as amended: a navigation failure on the very first search does not
propagate out of `Xing.fetch`.  The adapter's own `except Exception`
(xing.py line 98) catches it and the method returns the content collected
so far — here the empty blob — so the orchestrator sees a normal return,
records no error, and the failure is invisible to the run. -/
theorem c5_fetch_swallows (o : XingPage) (e : String)
    (h : o.gotoResult (xingUrl (some "Cologne") "data") = .error e) :
    xingFetch o none = [] := by
  simp [xingFetch, xingSearchSpecs, NRW_CITIES, KEYWORDS, xingSearchLoop,
    xingKwLoop, maxStop, h]

/-- Witness for `c5_fetch_swallows` at the concrete failing page. -/
theorem c5_witness : xingFetch c5FailPage none = [] :=
  c5_fetch_swallows c5FailPage "Page.goto: Timeout 30000ms exceeded." rfl

/-- C5 counterexample.  The claim asserts a total fetch failure propagates
as an adapter-level exception which the orchestrator records.  On the code,
with a page whose first navigation times out, `Xing.fetch` returns the
empty blob normally, `parse` of it yields no listings, and the resulting
run records no error at all — nothing propagated. -/
theorem c5_swallow_counterexample :
    xingFetch c5FailPage none = [] ∧
    (xingParse (xingFetch c5FailPage none) []).1 = [] ∧
    (run_scrape [⟨"xing", .ok (xingParse (xingFetch c5FailPage none) []).1⟩]
        false emptyDb).errors = [] ∧
    (run_scrape [⟨"xing", .ok (xingParse (xingFetch c5FailPage none) []).1⟩]
        false emptyDb).found = 0 := by
  decide

/-! ## C3 — runs always finalize as "completed", failures recorded -/

/-- Errors already recorded survive the rest of the site loop. -/
theorem scrapeFold_errors_mono :
    ∀ (sites : List SiteInput) (dry : Bool) (rid : Option Nat) (st : LoopSt)
      (p : String × String), p ∈ st.errors →
      p ∈ (sites.foldl (scrapeStep dry rid) st).errors := by
  intro sites
  induction sites with
  | nil => intro dry rid st p hp; simpa using hp
  | cons site rest ih =>
    intro dry rid st p hp
    refine ih dry rid (scrapeStep dry rid st site) p ?_
    cases hfp : site.fetchParse with
    | error e => simp [scrapeStep, hfp, hp]
    | ok listings =>
      by_cases hdry : dry
      · simp [scrapeStep, hfp, hdry, hp]
      · by_cases hbr : st.broken
        · simp [scrapeStep, hfp, hdry, hbr, hp]
        · cases hins : _insert_listings st.db
            (listings.filter (fun l =>
              matches_filters l.title l.description l.location l.company)) rid "css" with
          | ok r => simp [scrapeStep, hfp, hdry, hbr, hins, hp]
          | error e => simp [scrapeStep, hfp, hdry, hbr, hins, hp]

/-- An adapter whose fetch/parse raised gets its `{site, error}` pair into
the loop's error list. -/
theorem scrapeFold_error_recorded :
    ∀ (sites : List SiteInput) (dry : Bool) (rid : Option Nat) (st : LoopSt)
      (s : SiteInput) (e : String), s ∈ sites → s.fetchParse = .error e →
      (s.name, e) ∈ (sites.foldl (scrapeStep dry rid) st).errors := by
  intro sites
  induction sites with
  | nil => intro _ _ _ _ _ h; cases h
  | cons site rest ih =>
    intro dry rid st s e hs hfp
    rcases List.mem_cons.mp hs with heq | hmem
    · subst heq
      refine scrapeFold_errors_mono rest dry rid _ _ ?_
      simp [scrapeStep, hfp]
    · exact ih dry rid _ s e hmem hfp

/-- C3 confirmed: for every non-dry run (the mode in which a run record
exists at all), the record's status goes running → completed exactly once —
its status history is `["running", "completed"]` — regardless of adapter
failures, and every adapter that raised is recorded as a `{site, error}`
pair while the loop went on to the next adapter.  This holds even when
every adapter fails. -/
theorem c3_run_completes (sites : List SiteInput) (db : Db) (h : sites ≠ []) :
    ∃ r, (run_scrape sites false db).run = some r ∧
      r.statusHistory = ["running", "completed"] ∧
      r.cols.status = "completed" ∧
      r.cols.completedSet = true ∧
      (∀ s ∈ sites, ∀ e, s.fetchParse = .error e →
        (s.name, e) ∈ (run_scrape sites false db).errors) := by
  have hne : sites.isEmpty = false := by
    cases sites with
    | nil => cases h rfl
    | cons a l => rfl
  simp only [run_scrape, hne, Bool.false_eq_true, if_false, Option.map_some]
  refine ⟨_, rfl, rfl, by simp, rfl, ?_⟩
  intro s hs e hfp
  exact scrapeFold_error_recorded sites false (some 1) _ s e hs hfp

/-- Witness for `c3_run_completes`: a run of two sites that both raise. -/
theorem c3_witness :
    ∃ r, (run_scrape c3sites false emptyDb).run = some r ∧
      r.statusHistory = ["running", "completed"] ∧
      r.cols.status = "completed" ∧
      r.cols.completedSet = true ∧
      (∀ s ∈ c3sites, ∀ e, s.fetchParse = .error e →
        (s.name, e) ∈ (run_scrape c3sites false emptyDb).errors) :=
  c3_run_completes c3sites emptyDb (by simp [c3sites])

/-! ## C7 — the excluded tally is never persisted (code bug) -/

/-- C7: the pipeline tallies exclusions and assigns them to
`run.jobs_excluded` (pipeline.py line 109) — but `ScrapeRun`
(db/models.py lines 61-76) has no `jobs_excluded` column (its counterpart
column is `jobs_matched`), so the assignment creates an unmapped instance
attribute that `session.commit()` silently drops.  The persisted run record
keeps `jobs_matched = 0` and carries no excluded count, for every run; the
concrete run stores an excluded tally of 1 on the in-memory attribute
only. -/
theorem c7_excluded_not_persisted :
    (∀ (sites : List SiteInput) (db : Db),
      ((run_scrape sites false db).run.map
          (fun r => ((persistRun r).jobs_matched, r.jobsExcludedAttr))) =
        if sites.isEmpty then none
        else some (0, some ((run_scrape sites false db).excluded))) ∧
    (run_scrape c7sites false emptyDb).excluded = 1 ∧
    ((run_scrape c7sites false emptyDb).run.map
        (fun r => (persistRun r).jobs_matched)) = some 0 := by
  refine ⟨?_, by decide, by decide⟩
  intro sites db
  by_cases hs : sites.isEmpty <;> simp [run_scrape, hs, persistRun, runColsInit]

/-! ## C8 — dry runs change nothing and count identically -/

/-- A dry-run step only adds the tallies and the possible fetch error; the
database, insert-call count and broken flag are untouched. -/
theorem scrapeStep_dry_eq (rid : Option Nat) (st : LoopSt) (site : SiteInput) :
    scrapeStep true rid st site =
      { st with found := st.found + siteFound site,
                excluded := st.excluded + siteExcluded site,
                errors := st.errors ++ siteErrD site } := by
  cases hfp : site.fetchParse <;>
    simp [scrapeStep, siteFound, siteExcluded, siteErrD, hfp]

/-- A wet step adds exactly the same found/excluded tallies as a dry one. -/
theorem scrapeStep_wet_counts (rid : Option Nat) (st : LoopSt) (site : SiteInput) :
    (scrapeStep false rid st site).found = st.found + siteFound site ∧
    (scrapeStep false rid st site).excluded = st.excluded + siteExcluded site := by
  cases hfp : site.fetchParse with
  | error e => simp [scrapeStep, siteFound, siteExcluded, hfp]
  | ok listings =>
    by_cases hbr : st.broken
    · simp [scrapeStep, siteFound, siteExcluded, hfp, hbr]
    · cases hins : _insert_listings st.db (listings.filter (fun l =>
        matches_filters l.title l.description l.location l.company)) rid "css" with
      | ok r => simp [scrapeStep, siteFound, siteExcluded, hfp, hbr, hins]
      | error e => simp [scrapeStep, siteFound, siteExcluded, hfp, hbr, hins]

/-- Dry fold: tallies are the per-site sums; nothing else of the state
changes. -/
theorem foldl_dry_counts (rid : Option Nat) :
    ∀ (sites : List SiteInput) (st : LoopSt),
      (sites.foldl (scrapeStep true rid) st).found = st.found + (sites.map siteFound).sum ∧
      (sites.foldl (scrapeStep true rid) st).excluded = st.excluded + (sites.map siteExcluded).sum ∧
      (sites.foldl (scrapeStep true rid) st).db = st.db ∧
      (sites.foldl (scrapeStep true rid) st).insertCalls = st.insertCalls := by
  intro sites
  induction sites with
  | nil => intro st; simp
  | cons site rest ih =>
    intro st
    have hstep := scrapeStep_dry_eq rid st site
    have hrec := ih
      { st with
          found := st.found + siteFound site,
          excluded := st.excluded + siteExcluded site,
          errors := st.errors ++ siteErrD site }
    simp only [List.foldl_cons, hstep]
    refine ⟨?_, ?_, ?_, ?_⟩ <;>
      simp [hrec.1, hrec.2.1, hrec.2.2.1, hrec.2.2.2] <;> omega

/-- Wet fold: the found/excluded tallies are the same per-site sums. -/
theorem foldl_wet_counts (rid : Option Nat) :
    ∀ (sites : List SiteInput) (st : LoopSt),
      (sites.foldl (scrapeStep false rid) st).found = st.found + (sites.map siteFound).sum ∧
      (sites.foldl (scrapeStep false rid) st).excluded = st.excluded + (sites.map siteExcluded).sum := by
  intro sites
  induction sites with
  | nil => intro st; simp
  | cons site rest ih =>
    intro st
    have hstep := scrapeStep_wet_counts rid st site
    have hrec := ih (scrapeStep false rid st site)
    simp only [List.foldl_cons]
    refine ⟨?_, ?_⟩ <;> simp [hrec.1, hrec.2, hstep.1, hstep.2] <;> omega

/-! ## C2 — exclusion is by whole-word title patterns only -/

/-- A match of one alternative lifts to any alternation containing it. -/
theorem altMatchAt_mono {alt : List (List Char)} {alts : RePat} (h : alt ∈ alts)
    {s : List Char} (hm : altMatchAt [alt] s = true) : altMatchAt alts s = true := by
  have hone : (match tokMatch alt s with
      | none => false
      | some [] => true
      | some (d :: _) => !isWordCharB d) = true := by
    simpa [altMatchAt] using hm
  exact List.any_eq_true.mpr ⟨alt, h, hone⟩

/-- A search hit of one alternative lifts to the full alternation. -/
theorem reSearchAux_mono {alt : List (List Char)} {alts : RePat} (h : alt ∈ alts) :
    ∀ (prev : Bool) (t : List Char),
      reSearchAux [alt] prev t = true → reSearchAux alts prev t = true := by
  intro prev t
  induction t generalizing prev with
  | nil => simp [reSearchAux]
  | cons c cs ih =>
    intro hm
    simp only [reSearchAux, Bool.or_eq_true] at hm ⊢
    rcases hm with hm | hm
    · left
      by_cases hp : prev
      · simp [hp] at hm
      · simp only [hp, if_false] at hm ⊢
        exact altMatchAt_mono h hm
    · right
      exact ih _ hm

/-- A whole-word hit of `w` in the title trips the EXCLUDE scan whenever
`[w]` is an alternative of one of the patterns. -/
theorem excludeHit_of_word (t w : String) (p : RePat)
    (hp : p ∈ EXCLUDE_PATTERNS) (ha : [w.data] ∈ p) (hw : hasWordCI t w = true) :
    EXCLUDE_PATTERNS.any (fun q => reSearch q t.data) = true :=
  List.any_eq_true.mpr ⟨p, hp, reSearchAux_mono ha false t.data hw⟩

/-- The filter rejects exactly when some EXCLUDE pattern matches the title. -/
theorem matches_filters_false_of_any {t d loc co : String}
    (h : EXCLUDE_PATTERNS.any (fun q => reSearch q t.data) = true) :
    matches_filters t d loc co = false := by
  simp [matches_filters, h]

/-- C2 counterexample.  The claim asserts `matches_filters` returns true for
every title lacking the four terms Junior/Praktikum/Werkstudent/Trainee.
On the code, `EXCLUDE_PATTERNS` also rejects azubi, ausbildung, internship,
working student, pflichtpraktikum, unpaid, volunteer and ehrenamt: the
title "Ausbildung zum Koch" contains none of the four claimed terms yet is
rejected. -/
theorem c2_counterexample :
    matches_filters "Ausbildung zum Koch" "" "" "" = false ∧
    claimC2TitleTerm "Ausbildung zum Koch" = false := by
  decide

/-- C2 as amended: the result depends on the title alone (description,
location and company are ignored); a whole-word, case-insensitive
occurrence of junior, praktikum, werkstudent or trainee forces rejection;
and a title matched by no EXCLUDE pattern (the full set also covering the
internship/azubi/ausbildung/unpaid/volunteer families) is accepted.
Containment as a mere substring is not enough: the patterns are
word-bounded. -/
theorem c2_exclusion_characterization (t d loc co d2 loc2 co2 : String) :
    matches_filters t d loc co = matches_filters t d2 loc2 co2 ∧
    ((hasWordCI t "junior" = true ∨ hasWordCI t "praktikum" = true ∨
      hasWordCI t "werkstudent" = true ∨ hasWordCI t "trainee" = true) →
      matches_filters t d loc co = false) ∧
    (EXCLUDE_PATTERNS.any (fun p => reSearch p t.data) = false →
      matches_filters t d loc co = true) := by
  refine ⟨rfl, ?_, ?_⟩
  · intro hw
    rcases hw with hw | hw | hw | hw
    · exact matches_filters_false_of_any (excludeHit_of_word t "junior"
        [["junior".data], ["trainee".data], ["azubi".data], ["ausbildung".data]]
        (by decide) (by decide) hw)
    · exact matches_filters_false_of_any (excludeHit_of_word t "praktikum"
        [["internship".data], ["praktikum".data], ["werkstudent".data],
         ["working".data, "student".data], ["pflichtpraktikum".data]]
        (by decide) (by decide) hw)
    · exact matches_filters_false_of_any (excludeHit_of_word t "werkstudent"
        [["internship".data], ["praktikum".data], ["werkstudent".data],
         ["working".data, "student".data], ["pflichtpraktikum".data]]
        (by decide) (by decide) hw)
    · exact matches_filters_false_of_any (excludeHit_of_word t "trainee"
        [["junior".data], ["trainee".data], ["azubi".data], ["ausbildung".data]]
        (by decide) (by decide) hw)
  · intro hno
    simp [matches_filters, hno]

/-- Witness for `c2_exclusion_characterization` at a junior-titled listing. -/
theorem c2_witness : matches_filters "Junior Data Engineer" "" "" "" = false :=
  (c2_exclusion_characterization "Junior Data Engineer" "" "" "" "" "" "").2.1
    (Or.inl (by decide))

/-! ## C1 — URL dedup across batches, and the within-batch gap -/

/-- Under the unique-URL constraint a filter by URL finds at most one row. -/
theorem filter_url_len_le_one {jobs : List Job}
    (h : (jobs.map Job.url).Nodup) (u : String) :
    (jobs.filter (fun j => j.url == u)).length ≤ 1 := by
  induction jobs with
  | nil => simp
  | cons j rest ih =>
    simp only [List.map_cons, List.nodup_cons] at h
    by_cases hj : j.url == u
    · have hnone : rest.filter (fun j2 => j2.url == u) = [] := by
        refine List.filter_eq_nil_iff.mpr ?_
        intro a ha hpa
        refine h.1 ?_
        have hau : a.url = u := by simpa using hpa
        have hju : j.url = u := by simpa using hj
        rw [hju, ← hau]
        exact List.mem_map_of_mem Job.url ha
      simp [hj, hnone]
    · simpa [hj] using ih h.2

/-- C1 counterexample.  The claim asserts that storing the same normalized
URL twice *within one batch* still yields exactly one persisted record and
a correct insert count.  On the code, the session has `autoflush=False`, so
the duplicate-check SELECT cannot see the first (pending, unflushed) row:
both rows are added, and the final `session.commit()` raises
`IntegrityError` against the unique constraint — the store call raises
instead of returning a count, and nothing from the batch is persisted. -/
theorem c1_within_batch_counterexample :
    _insert_listings emptyDb [c1Listing, c1Listing] none "css" =
      .error "IntegrityError: duplicate key value violates unique constraint" := by
  decide

/-- C1 as amended: across separate store calls the dedup works as claimed —
for any well-formed repository, storing one listing yields exactly one
persisted record for its normalized URL, and repeating the same store in a
later batch inserts nothing, returns 0, and leaves the repository
unchanged.  (Within a single batch the guarantee fails; see the
counterexample.) -/
theorem c1_store_idempotent_across_batches (db : Db) (l : JobListing)
    (rid rid2 : Option Nat) (m m2 : String) (h : dbWf db) :
    ∃ c db1, _insert_listings db [l] rid m = .ok (c, db1) ∧
      (db1.jobs.filter (fun j => j.url == normalize_url l.url)).length = 1 ∧
      _insert_listings db1 [l] rid2 m2 = .ok (0, db1) := by
  obtain ⟨hnid, hids, hnodup⟩ := h
  cases hfil : db.jobs.filter (fun j => j.url == normalize_url l.url) with
  | nil =>
    have hany : db.jobs.any (fun j => j.url == normalize_url l.url) = false := by
      rw [Bool.eq_false_iff]
      intro hsome
      obtain ⟨a, ha, hpa⟩ := List.any_eq_true.mp hsome
      have : a ∈ db.jobs.filter (fun j => j.url == normalize_url l.url) :=
        List.mem_filter.mpr ⟨ha, hpa⟩
      rw [hfil] at this
      cases this
    refine ⟨1, ⟨db.jobs ++ [rowOfListing l (normalize_url l.url) db.nextId rid m],
      db.nextId + 1⟩, ?_, ?_, ?_⟩
    · simp [_insert_listings, insertLoop, hfil, pendingUrlsOk, rowOfListing, hany]
    · simp [List.filter_append, hfil, rowOfListing]
    · have hid0 : db.nextId ≠ 0 := by omega
      simp [_insert_listings, insertLoop, List.filter_append, hfil, rowOfListing, hid0]
  | cons j0 rest0 =>
    cases rest0 with
    | nil =>
      have hj0mem : j0 ∈ db.jobs :=
        List.mem_of_mem_filter (p := fun j => j.url == normalize_url l.url)
          (by rw [hfil]; exact List.mem_cons_self _ _)
      have hid0 : j0.id ≠ 0 := by
        have := hids j0 hj0mem
        omega
      refine ⟨0, db, ?_, ?_, ?_⟩
      · simp [_insert_listings, insertLoop, hfil, hid0]
      · simp [hfil]
      · simp [_insert_listings, insertLoop, hfil, hid0]
    | cons j1 rest1 =>
      exfalso
      have hle := filter_url_len_le_one hnodup (normalize_url l.url)
      rw [hfil] at hle
      simp at hle

/-- Witness for `c1_store_idempotent_across_batches` on the empty
repository. -/
theorem c1_witness :
    ∃ c db1, _insert_listings emptyDb [c1Listing] none "css" = .ok (c, db1) ∧
      (db1.jobs.filter (fun j => j.url == normalize_url c1Listing.url)).length = 1 ∧
      _insert_listings db1 [c1Listing] none "css" = .ok (0, db1) :=
  c1_store_idempotent_across_batches emptyDb c1Listing none none "css" "css"
    (by refine ⟨by decide, ?_, by decide⟩; intro j hj; cases hj)

/-- C8 confirmed: over the same adapters and repository, a dry run computes
exactly the found and excluded tallies of a wet run, makes no call to
`_insert_listings`, leaves the repository untouched, and produces no run
record. -/
theorem c8_dry_run_frame (sites : List SiteInput) (db : Db) :
    (run_scrape sites true db).found = (run_scrape sites false db).found ∧
    (run_scrape sites true db).excluded = (run_scrape sites false db).excluded ∧
    (run_scrape sites true db).db = db ∧
    (run_scrape sites true db).insertCalls = 0 ∧
    (run_scrape sites true db).run = none := by
  by_cases hs : sites.isEmpty
  · simp [run_scrape, hs]
  · have hD := foldl_dry_counts none sites ⟨0, 0, 0, [], db, 0, false⟩
    have hW := foldl_wet_counts (some 1) sites ⟨0, 0, 0, [], db, 0, false⟩
    refine ⟨?_, ?_, ?_, ?_, ?_⟩ <;>
      simp [run_scrape, hs, hD.1, hD.2.1, hD.2.2.1, hD.2.2.2, hW.1, hW.2]

/-! ## C4/C10 — URL normalization.  Character foundations -/

theorem charValidNat (c : Char) : c.toNat.isValidChar := c.valid

theorem toNat_ofNatV {n : Nat} (h : n.isValidChar) : (Char.ofNat n).toNat = n := by
  simp [Char.ofNat, h, Char.ofNatAux, Char.toNat, UInt32.toNat]

theorem char_toNat_inj {c d : Char} (h : c.toNat = d.toNat) : c = d := by
  rw [← Char.ofNat_toNat c, h, Char.ofNat_toNat]

theorem char_toNat_lt (c : Char) : c.toNat < 0x110000 := by
  have h := charValidNat c
  rcases h with h | h <;> omega

theorem isAlpha_iff (c : Char) :
    c.isAlpha = true ↔ (65 ≤ c.toNat ∧ c.toNat ≤ 90) ∨ (97 ≤ c.toNat ∧ c.toNat ≤ 122) := by
  have e1 : ((65 : UInt32).toBitVec).toNat = 65 := rfl
  have e2 : ((90 : UInt32).toBitVec).toNat = 90 := rfl
  have e3 : ((97 : UInt32).toBitVec).toNat = 97 := rfl
  have e4 : ((122 : UInt32).toBitVec).toNat = 122 := rfl
  simp only [Char.isAlpha, Char.isUpper, Char.isLower, Bool.or_eq_true, Bool.and_eq_true,
    decide_eq_true_eq, Char.le_def, UInt32.le_def, BitVec.le_def, Char.toNat, UInt32.toNat]
  omega

theorem isDigit_iff (c : Char) :
    c.isDigit = true ↔ 48 ≤ c.toNat ∧ c.toNat ≤ 57 := by
  have e1 : ((48 : UInt32).toBitVec).toNat = 48 := rfl
  have e2 : ((57 : UInt32).toBitVec).toNat = 57 := rfl
  simp only [Char.isDigit, Bool.and_eq_true, decide_eq_true_eq, Char.le_def,
    UInt32.le_def, BitVec.le_def, Char.toNat, UInt32.toNat]
  omega

theorem isAlphanum_iff (c : Char) :
    c.isAlphanum = true ↔ (48 ≤ c.toNat ∧ c.toNat ≤ 57) ∨
      (65 ≤ c.toNat ∧ c.toNat ≤ 90) ∨ (97 ≤ c.toNat ∧ c.toNat ≤ 122) := by
  simp only [Char.isAlphanum, Bool.or_eq_true, isAlpha_iff, isDigit_iff]
  omega

/-- `str.lower` on one character, at the numeric level. -/
theorem toLower_toNat (c : Char) :
    (Char.toLower c).toNat =
      if 65 ≤ c.toNat ∧ c.toNat ≤ 90 then c.toNat + 32 else c.toNat := by
  by_cases h : 65 ≤ c.toNat ∧ c.toNat ≤ 90
  · have hv : (c.toNat + 32).isValidChar := Or.inl (by omega)
    simp [Char.toLower, h, toNat_ofNatV hv]
  · simp [Char.toLower, h]

theorem toLower_toLower (c : Char) :
    Char.toLower (Char.toLower c) = Char.toLower c := by
  apply char_toNat_inj
  rw [toLower_toNat (Char.toLower c), toLower_toNat c]
  split_ifs <;> omega

theorem isSchemeChar_toLower {c : Char} (h : isSchemeChar c = true) :
    isSchemeChar (Char.toLower c) = true := by
  by_cases ha : c.isAlphanum = true
  · have hn := (isAlphanum_iff c).mp ha
    have ht := toLower_toNat c
    have hl : (Char.toLower c).isAlphanum = true := by
      rw [isAlphanum_iff]
      split_ifs at ht <;> omega
    simp [isSchemeChar, hl]
  · have hc : c = '+' ∨ c = '-' ∨ c = '.' := by
      simp only [isSchemeChar, Bool.or_eq_true, beq_iff_eq] at h
      tauto
    rcases hc with hc | hc | hc <;> rw [hc] <;> decide

theorem isAlpha_toLower {c : Char} (h : c.isAlpha = true) :
    (Char.toLower c).isAlpha = true := by
  rw [isAlpha_iff] at h ⊢
  have ht := toLower_toNat c
  split_ifs at ht <;> omega

/-- `toLower` fixes characters outside the uppercase range; in particular a
character whose code is not in `[97, 122]` and that equals `toLower c` must
equal `c` itself. -/
theorem toLower_eq_low {c x : Char} (h : Char.toLower c = x) (hx : x.toNat < 97) : c = x := by
  have ht := toLower_toNat c
  by_cases hr : 65 ≤ c.toNat ∧ c.toNat ≤ 90
  · simp [hr] at ht
    rw [h] at ht
    omega
  · simp [hr] at ht
    exact char_toNat_inj (by rw [← h] at hx ⊢; omega)

/-! ### splitFirst / splitAllSep / rstripSlash infrastructure -/

theorem splitFirst_not_mem {sep : Char} :
    ∀ {l : List Char}, sep ∉ l → splitFirst sep l = none := by
  intro l h
  induction l with
  | nil => rfl
  | cons c cs ih =>
    simp only [List.mem_cons, not_or] at h
    have hc : (c == sep) = false := by
      simp only [beq_eq_false_iff_ne]
      exact fun he => h.1 he.symm
    simp [splitFirst, hc, ih h.2]

theorem splitFirst_append {sep : Char} :
    ∀ {a : List Char} (b : List Char), sep ∉ a →
      splitFirst sep (a ++ sep :: b) = some (a, b) := by
  intro a
  induction a with
  | nil => intro b _; simp [splitFirst]
  | cons c cs ih =>
    intro b h
    simp only [List.mem_cons, not_or] at h
    have hc : (c == sep) = false := by
      simp only [beq_eq_false_iff_ne]
      exact fun he => h.1 he.symm
    simp [splitFirst, hc, ih b h.2]

theorem splitFirst_eq_some {sep : Char} :
    ∀ {l a b : List Char}, splitFirst sep l = some (a, b) →
      l = a ++ sep :: b ∧ sep ∉ a := by
  intro l
  induction l with
  | nil => intro a b h; cases h
  | cons c cs ih =>
    intro a b h
    by_cases hc : (c == sep) = true
    · have hce : c = sep := by simpa [beq_iff_eq] using hc
      simp only [splitFirst, hc, if_true, Option.some.injEq, Prod.mk.injEq] at h
      obtain ⟨ha, hb⟩ := h
      subst ha; subst hb; subst hce
      exact ⟨rfl, by simp⟩
    · have hc' : (c == sep) = false := by simpa using hc
      cases hsp : splitFirst sep cs with
      | none => simp [splitFirst, hc', hsp] at h
      | some p =>
        simp only [splitFirst, hc', Bool.false_eq_true, if_false, hsp, Option.map_some,
          Option.some.injEq] at h
        obtain ⟨hl, hm⟩ := ih (a := p.1) (b := p.2) (by rw [hsp])
        have ha : a = c :: p.1 := by
          have := congrArg Prod.fst h
          simpa using this.symm
        have hb : b = p.2 := by
          have := congrArg Prod.snd h
          simpa using this.symm
        subst ha; subst hb
        refine ⟨by simpa using congrArg (fun t => c :: t) hl, ?_⟩
        simp only [List.mem_cons, not_or]
        have hcs : sep ≠ c := by
          simp only [beq_eq_false_iff_ne] at hc'
          exact fun he => hc' he.symm
        exact ⟨hcs, hm⟩

theorem splitFirst_mem {sep : Char} {l a b : List Char}
    (h : splitFirst sep l = some (a, b)) {c : Char} :
    (c ∈ a → c ∈ l) ∧ (c ∈ b → c ∈ l) := by
  obtain ⟨hl, _⟩ := splitFirst_eq_some h
  subst hl
  constructor
  · intro hc; exact List.mem_append.mpr (Or.inl hc)
  · intro hc; exact List.mem_append.mpr (Or.inr (List.mem_cons_of_mem _ hc))

theorem dropWhile_self_drop (p : Char → Bool) :
    ∀ l : List Char, List.dropWhile p (List.dropWhile p l) = List.dropWhile p l := by
  intro l
  induction l with
  | nil => rfl
  | cons c cs ih =>
    by_cases hc : p c
    · simp [List.dropWhile_cons, hc, ih]
    · simp [List.dropWhile_cons, hc]

theorem rstripSlash_idem (l : List Char) :
    rstripSlash (rstripSlash l) = rstripSlash l := by
  simp [rstripSlash, dropWhile_self_drop]

theorem rstripSlash_mem {l : List Char} {c : Char} (h : c ∈ rstripSlash l) : c ∈ l := by
  simp only [rstripSlash, List.mem_reverse] at h
  have := (List.dropWhile_sublist (l := l.reverse) (fun c => c == '/')).mem h
  simpa using this

/-- `rstripSlash` removes a (possibly empty) tail of slashes. -/
theorem rstripSlash_spec (l : List Char) :
    ∃ t, l = rstripSlash l ++ t ∧ ∀ c ∈ t, c = '/' := by
  refine ⟨(l.reverse.takeWhile (fun c => c == '/')).reverse, ?_, ?_⟩
  · have h := List.takeWhile_append_dropWhile (p := fun c => c == '/') (l := l.reverse)
    have h2 : l = (List.takeWhile (fun c => c == '/') l.reverse ++
        List.dropWhile (fun c => c == '/') l.reverse).reverse := by
      rw [h, List.reverse_reverse]
    rw [rstripSlash]
    conv_lhs => rw [h2, List.reverse_append]
  · intro c hc
    simp only [List.mem_reverse] at hc
    have := List.mem_takeWhile_imp hc
    simpa using this

/-- The result of `rstripSlash` does not end in a slash: stripping one more
leading slash from its reverse does nothing. -/
theorem rstripSlash_rev_head (l : List Char) :
    (rstripSlash l).reverse = List.dropWhile (fun c => c == '/') (rstripSlash l).reverse := by
  simp [rstripSlash, dropWhile_self_drop]

theorem rstripSlash_cons_slash {p : List Char}
    (hp : rstripSlash p = p) (hne : p ≠ []) : rstripSlash ('/' :: p) = '/' :: p := by
  have hrev : List.dropWhile (fun c => c == '/') p.reverse = p.reverse := by
    have h2 := congrArg List.reverse hp
    simpa [rstripSlash] using h2
  have hnerev : p.reverse ≠ [] := by simpa using hne
  cases hrv : p.reverse with
  | nil => exact absurd hrv hnerev
  | cons c cs =>
    rw [hrv] at hrev
    have hc : (c == '/') = false := by
      by_cases hcc : (c == '/') = true
      · rw [List.dropWhile_cons, hcc] at hrev
        have hlen := congrArg List.length hrev
        have hsub := (List.dropWhile_sublist (l := cs) (fun c => c == '/')).length_le
        simp only [if_true, List.length_cons] at hlen
        omega
      · simpa using hcc
    have hrv2 : ('/' :: p).reverse = p.reverse ++ ['/'] := by simp
    have hp2 : (c :: cs).reverse = p := by rw [← hrv]; simp
    rw [rstripSlash, hrv2, hrv, List.dropWhile_append]
    simp only [List.dropWhile_cons, hc, Bool.false_eq_true, if_false, List.isEmpty_cons]
    simpa using hp2

/-! ### Percent-encoding round trip -/

theorem hexUpper_facts {k : Nat} (hk : k < 16) :
    isHexC (hexUpper k) = true ∧ hexValC (hexUpper k) = k ∧
      alwaysSafeC (hexUpper k) = true ∧ hexUpper k ≠ '%' := by
  interval_cases k <;> exact ⟨by decide, by decide, by decide, by decide⟩

theorem utf8Bytes_lt {n : Nat} (hn : n < 0x110000) : ∀ b ∈ utf8Bytes n, b < 256 := by
  intro b hb
  by_cases h1 : n < 0x80
  · simp [utf8Bytes, h1] at hb; omega
  · by_cases h2 : n < 0x800
    · simp [utf8Bytes, h1, h2] at hb; rcases hb with hb | hb <;> omega
    · by_cases h3 : n < 0x10000
      · simp [utf8Bytes, h1, h2, h3] at hb
        rcases hb with hb | hb | hb <;> omega
      · simp [utf8Bytes, h1, h2, h3] at hb
        rcases hb with hb | hb | hb | hb <;> omega

theorem utf8Bytes_ne_nil (n : Nat) : utf8Bytes n ≠ [] := by
  simp only [utf8Bytes]
  split_ifs <;> simp

theorem pctToks_cons_lit {c : Char} (hc : c ≠ '%') (r : List Char) :
    pctToks (c :: r) = Sum.inl c :: pctToks r := by
  cases r with
  | nil => simp [pctToks]
  | cons h1 t =>
    cases t with
    | nil => simp [pctToks]
    | cons h2 rest =>
      rw [pctToks.eq_def]
      split
      · simp_all
      · simp_all
      · simp_all

theorem pctToks_hex (h1 h2 : Char) (rest : List Char)
    (hh : (isHexC h1 && isHexC h2) = true) :
    pctToks ('%' :: h1 :: h2 :: rest) =
      Sum.inr (hexValC h1 * 16 + hexValC h2) :: pctToks rest := by
  simp [pctToks, hh]

theorem pctToks_pctRun :
    ∀ (bs : List Nat), (∀ b ∈ bs, b < 256) → ∀ r : List Char,
      pctToks (bs.flatMap (fun b => ['%', hexUpper (b / 16), hexUpper (b % 16)]) ++ r)
        = bs.map Sum.inr ++ pctToks r := by
  intro bs
  induction bs with
  | nil => intro _ r; simp
  | cons b bt ih =>
    intro hb r
    have hblt : b < 256 := hb b (by simp)
    have hfa := hexUpper_facts (k := b / 16) (by omega)
    have hfb := hexUpper_facts (k := b % 16) (by omega)
    have hval : hexValC (hexUpper (b / 16)) * 16 + hexValC (hexUpper (b % 16)) = b := by
      rw [hfa.2.1, hfb.2.1]; omega
    have hhx : (isHexC (hexUpper (b / 16)) && isHexC (hexUpper (b % 16))) = true := by
      rw [hfa.1, hfb.1]; rfl
    simp only [List.flatMap_cons, List.cons_append, List.append_assoc]
    rw [pctToks_hex _ _ _ hhx, hval]
    simp only [List.nil_append]
    rw [ih (fun x hx => hb x (List.mem_cons_of_mem _ hx)) r]
    simp

theorem pctToks_quote (extra : List Char) (hex : extra.contains '%' = false) :
    ∀ s, pctToks (quoteM extra s) =
      toksEnc (fun c => alwaysSafeC c || extra.contains c) s := by
  intro s
  induction s with
  | nil => rfl
  | cons c cs ih =>
    by_cases hsafe : (alwaysSafeC c || extra.contains c) = true
    · have hcns : c ≠ '%' := by
        intro he
        subst he
        rw [hex, Bool.or_false] at hsafe
        exact absurd hsafe (by decide)
      simp only [quoteM, List.flatMap_cons, hsafe, if_true, List.cons_append,
        List.nil_append, List.singleton_append]
      rw [pctToks_cons_lit hcns]
      simp only [toksEnc, List.flatMap_cons, tokEnc, hsafe, if_true]
      simp only [quoteM, toksEnc] at ih
      rw [ih]
      rfl
    · have hlt := utf8Bytes_lt (char_toNat_lt c)
      simp only [quoteM, List.flatMap_cons, hsafe, Bool.false_eq_true, if_false]
      rw [pctEncChar]
      rw [pctToks_pctRun _ hlt _]
      simp only [toksEnc, List.flatMap_cons, tokEnc, hsafe, Bool.false_eq_true, if_false]
      simp only [quoteM, toksEnc] at ih
      rw [ih]

theorem unqDecF_inl (fuel : Nat) (c : Char) (rest : List (Sum Char Nat)) :
    unqDecF (fuel + 1) (Sum.inl c :: rest) = c :: unqDecF fuel rest := rfl

theorem unqDecF_b1 {b : Nat} (fuel : Nat) (rest : List (Sum Char Nat)) (h : b < 0x80) :
    unqDecF (fuel + 1) (Sum.inr b :: rest) = Char.ofNat b :: unqDecF fuel rest := by
  simp only [unqDecF]
  rw [if_pos h]

theorem unqDecF_b2 {b b2 : Nat} (fuel : Nat) (rest : List (Sum Char Nat))
    (hb : 0xC2 ≤ b ∧ b ≤ 0xDF) (hc : contB b2 = true) :
    unqDecF (fuel + 1) (Sum.inr b :: Sum.inr b2 :: rest) =
      Char.ofNat ((b - 0xC0) * 64 + (b2 - 0x80)) :: unqDecF fuel rest := by
  simp only [unqDecF]
  rw [if_neg (by omega), if_pos (by simp only [Bool.and_eq_true, decide_eq_true_eq]; exact hb)]
  simp [hc]

theorem unqDecF_b3 {b b2 b3 : Nat} (fuel : Nat) (rest : List (Sum Char Nat))
    (hb : 0xE0 ≤ b ∧ b ≤ 0xEF) (hc2 : cont3ok b b2 = true) (hc3 : contB b3 = true) :
    unqDecF (fuel + 1) (Sum.inr b :: Sum.inr b2 :: Sum.inr b3 :: rest) =
      Char.ofNat ((b - 0xE0) * 4096 + (b2 - 0x80) * 64 + (b3 - 0x80)) :: unqDecF fuel rest := by
  simp only [unqDecF]
  rw [if_neg (by omega),
      if_neg (by simp only [Bool.and_eq_true, decide_eq_true_eq]; omega),
      if_pos (by simp only [Bool.and_eq_true, decide_eq_true_eq]; exact hb)]
  simp [hc2, hc3]

theorem unqDecF_b4 {b b2 b3 b4 : Nat} (fuel : Nat) (rest : List (Sum Char Nat))
    (hb : 0xF0 ≤ b ∧ b ≤ 0xF4) (hc2 : cont4ok b b2 = true) (hc3 : contB b3 = true)
    (hc4 : contB b4 = true) :
    unqDecF (fuel + 1) (Sum.inr b :: Sum.inr b2 :: Sum.inr b3 :: Sum.inr b4 :: rest) =
      Char.ofNat ((b - 0xF0) * 262144 + (b2 - 0x80) * 4096 + (b3 - 0x80) * 64 + (b4 - 0x80)) ::
        unqDecF fuel rest := by
  simp only [unqDecF]
  rw [if_neg (by omega),
      if_neg (by simp only [Bool.and_eq_true, decide_eq_true_eq]; omega),
      if_neg (by simp only [Bool.and_eq_true, decide_eq_true_eq]; omega),
      if_pos (by simp only [Bool.and_eq_true, decide_eq_true_eq]; exact hb)]
  simp [hc2, hc3, hc4]

theorem unqDecF_tokEnc (sp : Char → Bool) (c : Char) (rest : List (Sum Char Nat)) (fuel : Nat) :
    unqDecF (fuel + 1) (tokEnc sp c ++ rest) = c :: unqDecF fuel rest := by
  by_cases hs : sp c = true
  · simp only [tokEnc, hs, if_true, List.singleton_append]
    exact unqDecF_inl fuel c rest
  · simp only [tokEnc, hs, Bool.false_eq_true, if_false]
    have hv : c.toNat < 0xD800 ∨ (0xE000 ≤ c.toNat ∧ c.toNat < 0x110000) := c.valid
    have hvu : c.toNat < 0x110000 := by rcases hv with h | h <;> omega
    have hofn : Char.ofNat c.toNat = c := Char.ofNat_toNat c
    by_cases h1 : c.toNat < 0x80
    · simp only [utf8Bytes]
      rw [if_pos h1]
      simp only [List.map_cons, List.map_nil, List.cons_append, List.nil_append]
      rw [unqDecF_b1 fuel rest h1, hofn]
    · by_cases h2 : c.toNat < 0x800
      · simp only [utf8Bytes]
        rw [if_neg h1, if_pos h2]
        simp only [List.map_cons, List.map_nil, List.cons_append, List.nil_append]
        rw [@unqDecF_b2 (0xC0 + c.toNat / 64) (0x80 + c.toNat % 64) fuel rest (by omega)
          (by simp only [contB, Bool.and_eq_true, decide_eq_true_eq]; omega)]
        have harith : (0xC0 + c.toNat / 64 - 0xC0) * 64 + (0x80 + c.toNat % 64 - 0x80)
            = c.toNat := by omega
        rw [harith, hofn]
      · by_cases h3 : c.toNat < 0x10000
        · simp only [utf8Bytes]
          rw [if_neg h1, if_neg h2, if_pos h3]
          simp only [List.map_cons, List.map_nil, List.cons_append, List.nil_append]
          have hc2 : cont3ok (0xE0 + c.toNat / 4096) (0x80 + (c.toNat / 64) % 64) = true := by
            simp only [cont3ok, beq_iff_eq]
            split_ifs <;>
              simp only [contB, Bool.and_eq_true, decide_eq_true_eq] <;>
              rcases hv with hv | hv <;> omega
          rw [@unqDecF_b3 (0xE0 + c.toNat / 4096) (0x80 + (c.toNat / 64) % 64)
            (0x80 + c.toNat % 64) fuel rest (by omega) hc2
            (by simp only [contB, Bool.and_eq_true, decide_eq_true_eq]; omega)]
          have harith : (0xE0 + c.toNat / 4096 - 0xE0) * 4096 +
              (0x80 + (c.toNat / 64) % 64 - 0x80) * 64 + (0x80 + c.toNat % 64 - 0x80)
              = c.toNat := by omega
          rw [harith, hofn]
        · simp only [utf8Bytes]
          rw [if_neg h1, if_neg h2, if_neg h3]
          simp only [List.map_cons, List.map_nil, List.cons_append, List.nil_append]
          have hc2 : cont4ok (0xF0 + c.toNat / 262144) (0x80 + (c.toNat / 4096) % 64) = true := by
            simp only [cont4ok, beq_iff_eq]
            split_ifs <;>
              simp only [contB, Bool.and_eq_true, decide_eq_true_eq] <;>
              rcases hv with hv | hv <;> omega
          rw [@unqDecF_b4 (0xF0 + c.toNat / 262144) (0x80 + (c.toNat / 4096) % 64)
            (0x80 + (c.toNat / 64) % 64) (0x80 + c.toNat % 64) fuel rest (by omega) hc2
            (by simp only [contB, Bool.and_eq_true, decide_eq_true_eq]; omega)
            (by simp only [contB, Bool.and_eq_true, decide_eq_true_eq]; omega)]
          have harith : (0xF0 + c.toNat / 262144 - 0xF0) * 262144 +
              (0x80 + (c.toNat / 4096) % 64 - 0x80) * 4096 +
              (0x80 + (c.toNat / 64) % 64 - 0x80) * 64 + (0x80 + c.toNat % 64 - 0x80)
              = c.toNat := by omega
          rw [harith, hofn]

theorem unqDecF_toksEnc (sp : Char → Bool) :
    ∀ (s : List Char) (fuel : Nat), s.length ≤ fuel → unqDecF fuel (toksEnc sp s) = s := by
  intro s
  induction s with
  | nil =>
    intro fuel _
    cases fuel <;> rfl
  | cons c cs ih =>
    intro fuel hf
    cases fuel with
    | zero => simp at hf
    | succ f =>
      simp only [toksEnc, List.flatMap_cons]
      rw [unqDecF_tokEnc]
      rw [show cs.flatMap (tokEnc sp) = toksEnc sp cs from rfl]
      rw [ih f (by simpa using hf)]

theorem toksEnc_length (sp : Char → Bool) (s : List Char) :
    s.length ≤ (toksEnc sp s).length := by
  induction s with
  | nil => simp [toksEnc]
  | cons c cs ih =>
    simp only [toksEnc, List.flatMap_cons, List.length_append, List.length_cons]
    have h1 : 1 ≤ (tokEnc sp c).length := by
      rw [tokEnc]
      split_ifs
      · simp
      · rw [List.length_map]
        cases h : utf8Bytes c.toNat with
        | nil => exact absurd h (utf8Bytes_ne_nil c.toNat)
        | cons a t => simp
    simp only [toksEnc] at ih
    omega

theorem unqDec_toksEnc (sp : Char → Bool) (s : List Char) : unqDec (toksEnc sp s) = s :=
  unqDecF_toksEnc sp s _ (toksEnc_length sp s)

theorem unquote_quoteM (extra : List Char) (hex : extra.contains '%' = false) (s : List Char) :
    unquoteM (quoteM extra s) = s := by
  rw [unquoteM, pctToks_quote extra hex, unqDec_toksEnc]

theorem pctEncChar_mem {c x : Char} (hx : x ∈ pctEncChar c) :
    x = '%' ∨ (alwaysSafeC x = true ∧ x ≠ '%') := by
  have hlt := utf8Bytes_lt (char_toNat_lt c)
  rw [pctEncChar, List.mem_flatMap] at hx
  obtain ⟨b, hb, hxb⟩ := hx
  have hb256 : b < 256 := hlt b hb
  have hfa := hexUpper_facts (k := b / 16) (by omega)
  have hfb := hexUpper_facts (k := b % 16) (by omega)
  simp only [List.mem_cons, List.not_mem_nil, or_false] at hxb
  rcases hxb with h | h | h
  · exact Or.inl h
  · exact Or.inr ⟨h ▸ hfa.2.2.1, h ▸ hfa.2.2.2⟩
  · exact Or.inr ⟨h ▸ hfb.2.2.1, h ▸ hfb.2.2.2⟩

theorem quoteM_mem {extra s : List Char} {x : Char} (hx : x ∈ quoteM extra s) :
    alwaysSafeC x = true ∨ extra.contains x = true ∨ x = '%' := by
  rw [quoteM, List.mem_flatMap] at hx
  obtain ⟨c, hc, hxc⟩ := hx
  by_cases hs : (alwaysSafeC c || extra.contains c) = true
  · rw [if_pos hs] at hxc
    simp only [List.mem_singleton] at hxc
    subst hxc
    rcases (show alwaysSafeC x = true ∨ extra.contains x = true by simpa using hs) with h | h
    · exact Or.inl h
    · exact Or.inr (Or.inl h)
  · rw [if_neg hs] at hxc
    rcases pctEncChar_mem hxc with h | h
    · exact Or.inr (Or.inr h)
    · exact Or.inl h.1

theorem quotePlusM_mem {s : List Char} {x : Char} (hx : x ∈ quotePlusM s) :
    alwaysSafeC x = true ∨ x = '%' ∨ x = '+' := by
  rw [quotePlusM] at hx
  split_ifs at hx
  · rw [List.mem_map] at hx
    obtain ⟨y, hy, hxy⟩ := hx
    rcases eq_or_ne y ' ' with hsp | hsp
    · subst hsp
      have hxp : x = '+' := by rw [← hxy]; rfl
      exact Or.inr (Or.inr hxp)
    · rw [if_neg (by simpa using hsp)] at hxy
      subst hxy
      rcases quoteM_mem hy with h | h | h
      · exact Or.inl h
      · simp only [List.contains_cons, List.contains_nil, Bool.or_false, beq_iff_eq] at h
        exact absurd h hsp
      · exact Or.inr (Or.inl h)
  · rcases quoteM_mem hx with h | h | h
    · exact Or.inl h
    · simp at h
    · exact Or.inr (Or.inl h)

theorem map_plus_space (l : List Char) (h : ∀ x ∈ l, x ≠ '+') :
    ((l.map fun c => if c == ' ' then '+' else c).map
      fun c => if c == '+' then ' ' else c) = l := by
  induction l with
  | nil => rfl
  | cons c t ih =>
    simp only [List.map_cons]
    rw [ih (fun x hx => h x (List.mem_cons_of_mem _ hx))]
    congr 1
    rcases eq_or_ne c ' ' with hc | hc
    · subst hc; rfl
    · have hcb : ¬((c == ' ') = true) := by simpa using hc
      have hpb : ¬((c == '+') = true) := by simpa using h c (List.mem_cons_self c t)
      rw [if_neg hcb, if_neg hpb]

theorem map_noplus (l : List Char) (h : ∀ x ∈ l, x ≠ '+') :
    (l.map fun c => if c == '+' then ' ' else c) = l := by
  induction l with
  | nil => rfl
  | cons c t ih =>
    simp only [List.map_cons]
    rw [ih (fun x hx => h x (List.mem_cons_of_mem _ hx))]
    rw [if_neg (by simpa using h c (List.mem_cons_self c t))]

theorem unquotePlus_quotePlus (s : List Char) : unquotePlusM (quotePlusM s) = s := by
  rw [unquotePlusM, quotePlusM]
  split_ifs with h
  · rw [map_plus_space _ (fun x hx => by
      rcases quoteM_mem hx with h1 | h1 | h1
      · intro he; subst he; exact absurd h1 (by decide)
      · intro he; subst he; simp at h1
      · intro he; subst he; exact absurd h1 (by decide))]
    exact unquote_quoteM [' '] (by decide) s
  · rw [map_noplus _ (fun x hx => by
      rcases quoteM_mem hx with h1 | h1 | h1
      · intro he; subst he; exact absurd h1 (by decide)
      · simp at h1
      · intro he; subst he; exact absurd h1 (by decide))]
    exact unquote_quoteM [] (by decide) s

theorem pctEncChar_ne_nil (c : Char) : pctEncChar c ≠ [] := by
  rw [pctEncChar]
  cases h : utf8Bytes c.toNat with
  | nil => exact absurd h (utf8Bytes_ne_nil c.toNat)
  | cons a t => simp

theorem quoteM_ne_nil {extra s : List Char} (h : s ≠ []) : quoteM extra s ≠ [] := by
  cases s with
  | nil => exact absurd rfl h
  | cons c t =>
    rw [quoteM, List.flatMap_cons]
    intro he
    rcases List.append_eq_nil.mp he with ⟨h1, _⟩
    split_ifs at h1
    exact absurd h1 (pctEncChar_ne_nil c)

theorem quotePlusM_ne_nil {s : List Char} (h : s ≠ []) : quotePlusM s ≠ [] := by
  rw [quotePlusM]
  split_ifs
  · intro he
    exact absurd (List.map_eq_nil.mp he) (quoteM_ne_nil h)
  · exact quoteM_ne_nil h


/-! ### Query-string round trip -/

theorem intercalate_cons2 (sep a b : List Char) (t : List (List Char)) :
    List.intercalate sep (a :: b :: t) = a ++ sep ++ List.intercalate sep (b :: t) := by
  simp [List.intercalate, List.intersperse]

theorem intercalate_one (sep a : List Char) : List.intercalate sep [a] = a := by
  simp [List.intercalate, List.intersperse]

theorem splitAllSep_no_sep {sep : Char} :
    ∀ {p : List Char}, sep ∉ p → splitAllSep sep p = [p] := by
  intro p
  induction p with
  | nil => intro _; rfl
  | cons c cs ih =>
    intro h
    have hc : ¬((c == sep) = true) := by
      simp only [beq_iff_eq]
      exact fun he => h (he ▸ List.mem_cons_self c cs)
    simp only [splitAllSep]
    rw [if_neg hc, ih (fun hm => h (List.mem_cons_of_mem _ hm))]

theorem splitAllSep_sep_append {sep : Char} :
    ∀ {p : List Char} (t : List Char), sep ∉ p →
      splitAllSep sep (p ++ sep :: t) = p :: splitAllSep sep t := by
  intro p
  induction p with
  | nil =>
    intro t _
    show splitAllSep sep (sep :: t) = [] :: splitAllSep sep t
    simp [splitAllSep]
  | cons c cs ih =>
    intro t h
    have hc : ¬((c == sep) = true) := by
      simp only [beq_iff_eq]
      exact fun he => h (he ▸ List.mem_cons_self c cs)
    simp only [List.cons_append, splitAllSep]
    rw [if_neg hc, show (cs.append (sep :: t)) = cs ++ sep :: t from rfl,
      ih t (fun hm => h (List.mem_cons_of_mem _ hm))]

theorem splitAllSep_intercalate {sep : Char} :
    ∀ (ps : List (List Char)), ps ≠ [] → (∀ p ∈ ps, sep ∉ p) →
      splitAllSep sep (List.intercalate [sep] ps) = ps := by
  intro ps
  induction ps with
  | nil => intro h _; exact absurd rfl h
  | cons p rest ih =>
    intro _ hmem
    cases rest with
    | nil =>
      rw [intercalate_one]
      exact splitAllSep_no_sep (hmem p (List.mem_cons_self p []))
    | cons q r =>
      rw [intercalate_cons2, List.append_assoc,
        show ([sep] : List Char) ++ List.intercalate [sep] (q :: r)
          = sep :: List.intercalate [sep] (q :: r) from rfl,
        splitAllSep_sep_append _ (hmem p (List.mem_cons_self _ _)),
        ih (by simp) (fun x hx => hmem x (List.mem_cons_of_mem _ hx))]

theorem mem_intercalate_sep {sep : Char} :
    ∀ (ps : List (List Char)) (x : Char), x ∈ List.intercalate [sep] ps →
      x = sep ∨ ∃ p ∈ ps, x ∈ p := by
  intro ps
  induction ps with
  | nil => intro x hx; simp [List.intercalate] at hx
  | cons p rest ih =>
    intro x hx
    cases rest with
    | nil =>
      rw [intercalate_one] at hx
      exact Or.inr ⟨p, List.mem_cons_self _ _, hx⟩
    | cons q r =>
      rw [intercalate_cons2, List.append_assoc] at hx
      rcases List.mem_append.mp hx with h | h
      · exact Or.inr ⟨p, List.mem_cons_self _ _, h⟩
      · rcases List.mem_append.mp h with h2 | h2
        · simp only [List.mem_singleton] at h2
          exact Or.inl h2
        · rcases ih x h2 with h3 | ⟨w, hw, hxw⟩
          · exact Or.inl h3
          · exact Or.inr ⟨w, List.mem_cons_of_mem _ hw, hxw⟩

theorem quotePlusM_char {s : List Char} {x : Char} (hx : x ∈ quotePlusM s) :
    0x20 < x.toNat ∧ x ≠ '&' ∧ x ≠ '=' ∧ x ≠ '#' ∧ x ≠ '?' ∧ x ≠ '/' ∧ x ≠ ':' ∧
      x ≠ ';' ∧ x ≠ '[' ∧ x ≠ ']' := by
  have hb : alwaysSafeC x = true ∨ x = '%' ∨ x = '+' := quotePlusM_mem hx
  have hnum : (48 ≤ x.toNat ∧ x.toNat ≤ 57) ∨ (65 ≤ x.toNat ∧ x.toNat ≤ 90) ∨
      (97 ≤ x.toNat ∧ x.toNat ≤ 122) ∨ x.toNat = 95 ∨ x.toNat = 46 ∨ x.toNat = 45 ∨
      x.toNat = 126 ∨ x.toNat = 37 ∨ x.toNat = 43 := by
    rcases hb with h | h | h
    · rcases (show (((x.isAlphanum = true ∨ x = '_') ∨ x = '.') ∨ x = '-') ∨ x = '~' by
        simpa [alwaysSafeC] using h) with (((h2 | h2) | h2) | h2) | h2
      · rcases (isAlphanum_iff x).mp h2 with h3 | h3 | h3
        · exact Or.inl h3
        · exact Or.inr (Or.inl h3)
        · exact Or.inr (Or.inr (Or.inl h3))
      · subst h2; right; right; right; left; rfl
      · subst h2; right; right; right; right; left; rfl
      · subst h2; right; right; right; right; right; left; rfl
      · subst h2; right; right; right; right; right; right; left; rfl
    · subst h; right; right; right; right; right; right; right; left; rfl
    · subst h; right; right; right; right; right; right; right; right; rfl
  refine ⟨by omega, ?_, ?_, ?_, ?_, ?_, ?_, ?_, ?_, ?_⟩ <;>
    (intro he; subst he; exact absurd hnum (by decide))

theorem urlencode_eq_intercalate (d : List (List Char × List (List Char))) :
    urlencodeM d = List.intercalate ['&']
      ((pairsFlat d).map (fun p => quotePlusM p.1 ++ '=' :: quotePlusM p.2)) := by
  rw [urlencodeM, pairsFlat]
  simp only [List.map_flatMap, List.map_map]
  rfl

theorem filterMap_some_id {α : Type} (f : α → Option α) :
    ∀ l : List α, (∀ x ∈ l, f x = some x) → l.filterMap f = l := by
  intro l
  induction l with
  | nil => intro _; rfl
  | cons a t ih =>
    intro h
    rw [List.filterMap_cons_some (h a (List.mem_cons_self a t)),
      ih (fun x hx => h x (List.mem_cons_of_mem _ hx))]

theorem pairsFlat_mem {d : List (List Char × List (List Char))}
    {p : List Char × List Char} (hp : p ∈ pairsFlat d) :
    ∃ kv ∈ d, p.1 = kv.1 ∧ p.2 ∈ kv.2 := by
  rw [pairsFlat, List.mem_flatMap] at hp
  obtain ⟨kv, hkv, hpk⟩ := hp
  rw [List.mem_map] at hpk
  obtain ⟨v, hv, he⟩ := hpk
  exact ⟨kv, hkv, by rw [← he], by rw [← he]; exact hv⟩

theorem pairsFlat_ne_nil {d : List (List Char × List (List Char))} (hne : d ≠ [])
    (hv : ∀ kv ∈ d, kv.2 ≠ []) : pairsFlat d ≠ [] := by
  cases d with
  | nil => exact absurd rfl hne
  | cons kv dt =>
    rw [pairsFlat, List.flatMap_cons]
    intro he
    rcases List.append_eq_nil.mp he with ⟨h1, _⟩
    exact hv kv (List.mem_cons_self _ _) (List.map_eq_nil.mp h1)

theorem parseQsl_encode (d : List (List Char × List (List Char))) (hwf : QsWf d)
    (hne : d ≠ []) : parseQslM (urlencodeM d) = pairsFlat d := by
  have hpieceamp : ∀ p ∈ (pairsFlat d).map
      (fun p => quotePlusM p.1 ++ '=' :: quotePlusM p.2), '&' ∉ p := by
    intro p hp
    rw [List.mem_map] at hp
    obtain ⟨pr, _, he⟩ := hp
    subst he
    intro hmem
    rcases List.mem_append.mp hmem with h | h
    · exact absurd rfl (quotePlusM_char h).2.1
    · rcases List.mem_cons.mp h with h | h
      · exact absurd h.symm (by decide)
      · exact absurd rfl (quotePlusM_char h).2.1
  have hflatne : pairsFlat d ≠ [] := pairsFlat_ne_nil hne (fun kv hkv => (hwf.2 kv hkv).1)
  have hpne : (pairsFlat d).map (fun p => quotePlusM p.1 ++ '=' :: quotePlusM p.2) ≠ [] := by
    intro he
    exact hflatne (List.map_eq_nil.mp he)
  have hqsne : urlencodeM d ≠ [] := by
    rw [urlencode_eq_intercalate]
    cases hps : (pairsFlat d).map (fun p => quotePlusM p.1 ++ '=' :: quotePlusM p.2) with
    | nil => exact absurd hps hpne
    | cons p rest =>
      cases rest with
      | nil =>
        rw [intercalate_one]
        obtain ⟨pr, hpr⟩ : ∃ pr, pr ∈ pairsFlat d ∧
            p = quotePlusM pr.1 ++ '=' :: quotePlusM pr.2 := by
          have : p ∈ (pairsFlat d).map
              (fun p => quotePlusM p.1 ++ '=' :: quotePlusM p.2) := by
            rw [hps]; exact List.mem_cons_self _ _
          rw [List.mem_map] at this
          obtain ⟨pr, h1, h2⟩ := this
          exact ⟨pr, h1, h2.symm⟩
        rw [hpr.2]
        intro he
        rcases List.append_eq_nil.mp he with ⟨_, h2⟩
        exact List.cons_ne_nil _ _ h2
      | cons q r =>
        rw [intercalate_cons2]
        intro he
        rcases List.append_eq_nil.mp he with ⟨h1, _⟩
        rcases List.append_eq_nil.mp h1 with ⟨_, h3⟩
        exact List.cons_ne_nil _ _ h3
  rw [parseQslM]
  simp only [urlencode_eq_intercalate d, List.isEmpty_eq_true]
  rw [if_neg (by rw [← urlencode_eq_intercalate d]; exact hqsne)]
  rw [splitAllSep_intercalate _ hpne hpieceamp]
  rw [List.filterMap_map]
  apply filterMap_some_id
  intro pr hpr
  obtain ⟨kv, hkv, hk, hv⟩ := pairsFlat_mem hpr
  have hvne : pr.2 ≠ [] := (hwf.2 kv hkv).2 pr.2 hv
  have hkq : ('=' : Char) ∉ quotePlusM pr.1 := by
    intro hm
    exact absurd rfl (quotePlusM_char hm).2.2.1
  have hsplit : splitFirst '=' (quotePlusM pr.1 ++ '=' :: quotePlusM pr.2)
      = some (quotePlusM pr.1, quotePlusM pr.2) := splitFirst_append _ hkq
  show (if (quotePlusM pr.1 ++ '=' :: quotePlusM pr.2) = ([] : List Char) then none
    else match splitFirst '=' (quotePlusM pr.1 ++ '=' :: quotePlusM pr.2) with
      | none => none
      | some (n, v) => if v = [] then none
        else some (unquotePlusM n, unquotePlusM v)) = some pr
  rw [if_neg (by
    intro he
    rcases List.append_eq_nil.mp he with ⟨_, h2⟩
    exact List.cons_ne_nil _ _ h2), hsplit]
  show (if (quotePlusM pr.2) = ([] : List Char) then none
    else some (unquotePlusM (quotePlusM pr.1), unquotePlusM (quotePlusM pr.2))) = some pr
  rw [if_neg (quotePlusM_ne_nil hvne), unquotePlus_quotePlus, unquotePlus_quotePlus]

theorem addQsPair_app_last (acc0 : List (List Char × List (List Char))) (k : List Char)
    (vs0 : List (List Char)) (v : List Char) (hk : ∀ kv ∈ acc0, kv.1 ≠ k) :
    addQsPair (acc0 ++ [(k, vs0)]) k v = acc0 ++ [(k, vs0 ++ [v])] := by
  rw [addQsPair, if_pos (by simp)]
  rw [List.map_append]
  congr 1
  · have hmap : acc0.map (fun kv => if (kv.1 == k) = true then (kv.1, kv.2 ++ [v]) else kv)
        = acc0.map id :=
      List.map_congr_left (fun a ha => by rw [if_neg (by simpa using hk a ha)]; rfl)
    rw [hmap, List.map_id]
  · simp

theorem addQsPair_new (acc : List (List Char × List (List Char))) (k : List Char)
    (v : List Char) (hk : ∀ kv ∈ acc, kv.1 ≠ k) :
    addQsPair acc k v = acc ++ [(k, [v])] := by
  rw [addQsPair, if_neg]
  intro hany
  obtain ⟨kv, hkv, hbeq⟩ := List.any_eq_true.mp hany
  exact hk kv hkv (by simpa using hbeq)

theorem foldl_addQs_vals (k : List Char) :
    ∀ (vs : List (List Char)) (acc0 : List (List Char × List (List Char)))
      (vs0 : List (List Char)), (∀ kv ∈ acc0, kv.1 ≠ k) →
      List.foldl (fun acc p => addQsPair acc p.1 p.2) (acc0 ++ [(k, vs0)])
        (vs.map (fun v => (k, v))) = acc0 ++ [(k, vs0 ++ vs)] := by
  intro vs
  induction vs with
  | nil => intro acc0 vs0 _; simp
  | cons v vt ih =>
    intro acc0 vs0 h
    simp only [List.map_cons, List.foldl_cons]
    rw [addQsPair_app_last acc0 k vs0 v h, ih acc0 (vs0 ++ [v]) h, List.append_assoc]
    rfl

theorem foldl_addQs_flat :
    ∀ (d : List (List Char × List (List Char)))
      (acc : List (List Char × List (List Char))),
      (d.map Prod.fst).Nodup → (∀ kv ∈ d, kv.2 ≠ []) →
      (∀ kv ∈ acc, ∀ kw ∈ d, kv.1 ≠ kw.1) →
      List.foldl (fun acc p => addQsPair acc p.1 p.2) acc (pairsFlat d) = acc ++ d := by
  intro d
  induction d with
  | nil => intro acc _ _ _; simp [pairsFlat]
  | cons kv dt ih =>
    intro acc hnd hvs hdisj
    have hnd' := hnd
    rw [List.map_cons, List.nodup_cons] at hnd'
    rw [pairsFlat, List.flatMap_cons, List.foldl_append]
    obtain ⟨v0, vt, hv⟩ : ∃ v0 vt, kv.2 = v0 :: vt := by
      cases hval : kv.2 with
      | nil => exact absurd hval (hvs kv (List.mem_cons_self _ _))
      | cons a b => exact ⟨a, b, rfl⟩
    rw [hv, List.map_cons, List.foldl_cons,
      addQsPair_new acc kv.1 v0 (fun x hx => hdisj x hx kv (List.mem_cons_self _ _)),
      foldl_addQs_vals kv.1 vt acc [v0]
        (fun x hx => hdisj x hx kv (List.mem_cons_self _ _))]
    have hkvre : (kv.1, ([v0] ++ vt : List (List Char))) = kv := by
      rw [show ([v0] ++ vt : List (List Char)) = v0 :: vt from rfl, ← hv]
    rw [hkvre]
    have hstep : List.foldl (fun acc p => addQsPair acc p.1 p.2) (acc ++ [kv])
        (dt.flatMap fun kw => kw.2.map fun v => (kw.1, v)) = (acc ++ [kv]) ++ dt := by
      rw [show (dt.flatMap fun kw => kw.2.map fun v => (kw.1, v)) = pairsFlat dt from rfl]
      apply ih (acc ++ [kv]) hnd'.2
        (fun kw hkw => hvs kw (List.mem_cons_of_mem _ hkw))
      intro kx hkx kw hkw
      rcases List.mem_append.mp hkx with h | h
      · exact hdisj kx h kw (List.mem_cons_of_mem _ hkw)
      · have he : kx = kv := List.mem_singleton.mp h
        subst he
        intro heq
        exact hnd'.1 (heq ▸ List.mem_map_of_mem Prod.fst hkw)
    rw [hstep, List.append_assoc]
    rfl

theorem parseQsM_nil : parseQsM [] = [] := rfl

theorem parseQs_encode {d : List (List Char × List (List Char))} (hwf : QsWf d)
    (hne : d ≠ []) : parseQsM (urlencodeM d) = d := by
  rw [parseQsM, parseQsl_encode d hwf hne]
  have h := foldl_addQs_flat d [] hwf.1 (fun kv hkv => (hwf.2 kv hkv).1)
    (fun kv hkv => absurd hkv (List.not_mem_nil kv))
  simpa using h


theorem pctToks_ne_nil : ∀ {l : List Char}, l ≠ [] → pctToks l ≠ [] := by
  intro l hl
  rw [pctToks.eq_def]
  split
  · exact absurd rfl hl
  · split_ifs <;> simp
  · simp

theorem unqDecF_ne_nil : ∀ (fuel : Nat) (l : List (Sum Char Nat)), l ≠ [] →
    unqDecF (fuel + 1) l ≠ [] := by
  intro fuel l hl
  match l with
  | [] => exact absurd rfl hl
  | Sum.inl c :: rest => rw [unqDecF_inl]; simp
  | Sum.inr b :: rest =>
    simp only [unqDecF]
    split_ifs <;> (repeat' split) <;> simp

theorem unqDec_ne_nil {l : List (Sum Char Nat)} (hl : l ≠ []) : unqDec l ≠ [] := by
  rw [unqDec]
  cases l with
  | nil => exact absurd rfl hl
  | cons t ts =>
    rw [List.length_cons]
    exact unqDecF_ne_nil ts.length (t :: ts) (List.cons_ne_nil _ _)

theorem unquoteM_ne_nil {l : List Char} (hl : l ≠ []) : unquoteM l ≠ [] := by
  rw [unquoteM]
  exact unqDec_ne_nil (pctToks_ne_nil hl)

theorem unquotePlusM_ne_nil {l : List Char} (hl : l ≠ []) : unquotePlusM l ≠ [] := by
  rw [unquotePlusM]
  apply unquoteM_ne_nil
  intro he
  exact hl (List.map_eq_nil.mp he)

theorem parseQslM_val_ne_nil (q : List Char) : ∀ p ∈ parseQslM q, p.2 ≠ [] := by
  intro p hp
  simp only [parseQslM, List.mem_filterMap] at hp
  obtain ⟨nv, hnv, hf⟩ := hp
  by_cases h1 : nv.isEmpty = true
  · rw [if_pos h1] at hf
    exact absurd hf (by simp)
  · rw [if_neg h1] at hf
    cases hsp : splitFirst '=' nv with
    | none =>
      rw [hsp] at hf
      exact absurd hf (by simp)
    | some ab =>
      rw [hsp] at hf
      obtain ⟨a, b⟩ := ab
      have hf2 : (if b.isEmpty = true then none
          else some (unquotePlusM a, unquotePlusM b)) = some p := hf
      split_ifs at hf2 with h2
      have hpe : (unquotePlusM a, unquotePlusM b) = p := Option.some.inj hf2
      have hb : b ≠ [] := by simpa using h2
      rw [← hpe]
      exact unquotePlusM_ne_nil hb

theorem addQsPair_wf {acc : List (List Char × List (List Char))} {k v : List Char}
    (hacc : QsWf acc) (hv : v ≠ []) : QsWf (addQsPair acc k v) := by
  rw [addQsPair]
  split_ifs with hany
  · constructor
    · have hkeys : (acc.map (fun kv =>
          if (kv.1 == k) = true then (kv.1, kv.2 ++ [v]) else kv)).map Prod.fst
          = acc.map Prod.fst := by
        rw [List.map_map]
        apply List.map_congr_left
        intro a _
        by_cases h : (a.1 == k) = true
        · simp [Function.comp, h]
        · simp [Function.comp, h]
      rw [hkeys]
      exact hacc.1
    · intro kv hkv
      rw [List.mem_map] at hkv
      obtain ⟨a, ha, he⟩ := hkv
      subst he
      by_cases h : (a.1 == k) = true
      · rw [if_pos h]
        refine ⟨by simp, ?_⟩
        intro x hx
        rcases List.mem_append.mp hx with h2 | h2
        · exact (hacc.2 a ha).2 x h2
        · rw [List.mem_singleton.mp h2]
          exact hv
      · rw [if_neg h]
        exact hacc.2 a ha
  · constructor
    · rw [List.map_append, List.nodup_append]
      refine ⟨hacc.1, List.nodup_singleton k, ?_⟩
      intro x hx hx2
      simp only [List.map_cons, List.map_nil, List.mem_singleton] at hx2
      subst hx2
      rw [List.mem_map] at hx
      obtain ⟨a, ha, he⟩ := hx
      apply hany
      rw [List.any_eq_true]
      exact ⟨a, ha, by simp [he]⟩
    · intro kv hkv
      rcases List.mem_append.mp hkv with h | h
      · exact hacc.2 kv h
      · rw [List.mem_singleton.mp h]
        refine ⟨by simp, ?_⟩
        intro x hx
        rw [List.mem_singleton.mp hx]
        exact hv

theorem foldl_addQs_wf : ∀ (ps : List (List Char × List Char))
    (acc : List (List Char × List (List Char))),
    QsWf acc → (∀ p ∈ ps, p.2 ≠ []) →
    QsWf (List.foldl (fun acc p => addQsPair acc p.1 p.2) acc ps) := by
  intro ps
  induction ps with
  | nil => intro acc h _; exact h
  | cons p pt ih =>
    intro acc h hv
    rw [List.foldl_cons]
    exact ih _ (addQsPair_wf h (hv p (List.mem_cons_self _ _)))
      (fun x hx => hv x (List.mem_cons_of_mem _ hx))

theorem parseQsM_wf (q : List Char) : QsWf (parseQsM q) :=
  foldl_addQs_wf (parseQslM q) []
    ⟨List.nodup_nil, fun kv hkv => absurd hkv (List.not_mem_nil kv)⟩
    (parseQslM_val_ne_nil q)

theorem QsWf_filter {d : List (List Char × List (List Char))} (hwf : QsWf d)
    (p : (List Char × List (List Char)) → Bool) : QsWf (d.filter p) := by
  constructor
  · exact hwf.1.sublist (List.Sublist.map Prod.fst (List.filter_sublist d))
  · intro kv hkv
    exact hwf.2 kv (List.mem_of_mem_filter hkv)

theorem filter_mem_eq_self {α : Type} (p : α → Bool) (l : List α) :
    (l.filter p).filter p = l.filter p :=
  List.filter_eq_self.mpr (fun a ha => List.of_mem_filter ha)

theorem urlencodeM_ne_nil {d : List (List Char × List (List Char))} (hwf : QsWf d)
    (hne : d ≠ []) : urlencodeM d ≠ [] := by
  have hflatne : pairsFlat d ≠ [] := pairsFlat_ne_nil hne (fun kv hkv => (hwf.2 kv hkv).1)
  have hpne : (pairsFlat d).map (fun p => quotePlusM p.1 ++ '=' :: quotePlusM p.2) ≠ [] := by
    intro he
    exact hflatne (List.map_eq_nil.mp he)
  rw [urlencode_eq_intercalate]
  cases hps : (pairsFlat d).map (fun p => quotePlusM p.1 ++ '=' :: quotePlusM p.2) with
  | nil => exact absurd hps hpne
  | cons p rest =>
    cases rest with
    | nil =>
      rw [intercalate_one]
      obtain ⟨pr, hpr⟩ : ∃ pr, pr ∈ pairsFlat d ∧
          p = quotePlusM pr.1 ++ '=' :: quotePlusM pr.2 := by
        have hmem : p ∈ (pairsFlat d).map
            (fun p => quotePlusM p.1 ++ '=' :: quotePlusM p.2) := by
          rw [hps]
          exact List.mem_cons_self _ _
        rw [List.mem_map] at hmem
        obtain ⟨pr, h1, h2⟩ := hmem
        exact ⟨pr, h1, h2.symm⟩
      rw [hpr.2]
      intro he
      rcases List.append_eq_nil.mp he with ⟨_, h2⟩
      exact List.cons_ne_nil _ _ h2
    | cons q r =>
      rw [intercalate_cons2]
      intro he
      rcases List.append_eq_nil.mp he with ⟨h1, _⟩
      rcases List.append_eq_nil.mp h1 with ⟨_, h3⟩
      exact List.cons_ne_nil _ _ h3

theorem urlencodeM_char {d : List (List Char × List (List Char))} {x : Char}
    (hx : x ∈ urlencodeM d) :
    0x20 < x.toNat ∧ x ≠ '#' ∧ x ≠ '?' ∧ x ≠ '/' ∧ x ≠ ':' ∧ x ≠ ';' ∧
      x ≠ '[' ∧ x ≠ ']' := by
  rw [urlencode_eq_intercalate] at hx
  rcases mem_intercalate_sep _ x hx with h | ⟨p, hp, hxp⟩
  · subst h
    exact ⟨by decide, by decide, by decide, by decide, by decide, by decide,
      by decide, by decide⟩
  · rw [List.mem_map] at hp
    obtain ⟨pr, _, he⟩ := hp
    subst he
    rcases List.mem_append.mp hxp with h | h
    · have hq := quotePlusM_char h
      exact ⟨hq.1, hq.2.2.2.1, hq.2.2.2.2.1, hq.2.2.2.2.2.1, hq.2.2.2.2.2.2.1,
        hq.2.2.2.2.2.2.2.1, hq.2.2.2.2.2.2.2.2.1, hq.2.2.2.2.2.2.2.2.2⟩
    · rcases List.mem_cons.mp h with h | h
      · subst h
        exact ⟨by decide, by decide, by decide, by decide, by decide, by decide,
          by decide, by decide⟩
      · have hq := quotePlusM_char h
        exact ⟨hq.1, hq.2.2.2.1, hq.2.2.2.2.1, hq.2.2.2.2.2.1, hq.2.2.2.2.2.2.1,
          hq.2.2.2.2.2.2.2.1, hq.2.2.2.2.2.2.2.2.1, hq.2.2.2.2.2.2.2.2.2⟩


/-! ### URL reassembly utilities -/

theorem splitFirst_none {sep : Char} :
    ∀ {l : List Char}, splitFirst sep l = none → sep ∉ l := by
  intro l
  induction l with
  | nil => intro _ hm; exact absurd hm (List.not_mem_nil sep)
  | cons c cs ih =>
    intro h hm
    rw [splitFirst] at h
    by_cases hc : (c == sep) = true
    · rw [if_pos hc] at h
      exact absurd h (by simp)
    · rw [if_neg hc] at h
      rcases List.mem_cons.mp hm with he | hmem
      · subst he
        exact hc (by simp)
      · cases hsp : splitFirst sep cs with
        | none => exact ih hsp hmem
        | some ab =>
          obtain ⟨a, b⟩ := ab
          rw [hsp] at h
          exact absurd h (by simp)

theorem splitFirst_app_left {sep : Char} {a x y : List Char}
    (h : splitFirst sep a = some (x, y)) (b : List Char) :
    splitFirst sep (a ++ b) = some (x, y ++ b) := by
  obtain ⟨he, hx⟩ := splitFirst_eq_some h
  subst he
  rw [List.append_assoc, List.cons_append]
  exact splitFirst_append (y ++ b) hx

theorem takeWhile_append_all (p : Char → Bool) (a b : List Char) (h : ∀ x ∈ a, p x = true) :
    (a ++ b).takeWhile p = a ++ b.takeWhile p := by
  induction a with
  | nil => simp
  | cons c cs ih =>
    simp only [List.cons_append, List.takeWhile_cons, h c (List.mem_cons_self c cs), if_true]
    rw [ih (fun x hx => h x (List.mem_cons_of_mem _ hx))]

theorem dropWhile_append_all (p : Char → Bool) (a b : List Char) (h : ∀ x ∈ a, p x = true) :
    (a ++ b).dropWhile p = b.dropWhile p := by
  induction a with
  | nil => simp
  | cons c cs ih =>
    simp only [List.cons_append, List.dropWhile_cons, h c (List.mem_cons_self c cs), if_true]
    exact ih (fun x hx => h x (List.mem_cons_of_mem _ hx))

theorem takeWhile_nil_of_head {p : Char → Bool} {c : Char} {l : List Char}
    (h : p c = false) : (c :: l).takeWhile p = [] := by
  rw [List.takeWhile_cons, h]
  rfl

theorem dropWhile_self_of_head {p : Char → Bool} {c : Char} {l : List Char}
    (h : p c = false) : (c :: l).dropWhile p = c :: l := by
  rw [List.dropWhile_cons, h]
  rfl

theorem pyClean_eq_self {l : List Char}
    (hhead : ∀ c, l.head? = some c → 0x20 < c.toNat)
    (hctl : ∀ c ∈ l, c ≠ Char.ofNat 9 ∧ c ≠ Char.ofNat 10 ∧ c ≠ Char.ofNat 13) :
    pyClean l = l := by
  rw [pyClean]
  have hdw : l.dropWhile (fun c => decide (c.toNat ≤ 0x20)) = l := by
    cases l with
    | nil => rfl
    | cons c cs =>
      rw [List.dropWhile_cons, if_neg]
      simp only [decide_eq_true_eq, not_le]
      exact hhead c rfl
  rw [hdw]
  apply List.filter_eq_self.mpr
  intro a ha
  have h3 := hctl a ha
  simp [h3.1, h3.2.1, h3.2.2]

theorem pyClean_no_ctl {u : List Char} {c : Char} (h : c ∈ pyClean u) :
    c ≠ Char.ofNat 9 ∧ c ≠ Char.ofNat 10 ∧ c ≠ Char.ofNat 13 := by
  rw [pyClean, List.mem_filter] at h
  have h2 := h.2
  simp only [Bool.not_eq_true', Bool.or_eq_false_iff, beq_eq_false_iff_ne] at h2
  exact ⟨h2.1.1, h2.1.2, h2.2⟩

theorem pyClean_mem {u : List Char} {c : Char} (h : c ∈ pyClean u) : c ∈ u := by
  rw [pyClean, List.mem_filter] at h
  exact (List.dropWhile_sublist _).mem h.1

theorem dropWhile_head_false {p : Char → Bool} :
    ∀ {u : List Char} {d : Char} {ds : List Char}, u.dropWhile p = d :: ds → p d = false := by
  intro u
  induction u with
  | nil => intro d ds h; exact absurd h (by simp)
  | cons c cs ih =>
    intro d ds h
    rw [List.dropWhile_cons] at h
    split_ifs at h with hc
    · exact ih h
    · injection h with h1 _
      subst h1
      simpa using hc

theorem pyClean_head {u : List Char} {c : Char} (h : (pyClean u).head? = some c) :
    0x20 < c.toNat := by
  rw [pyClean] at h
  cases hdw : u.dropWhile (fun c => decide (c.toNat ≤ 0x20)) with
  | nil => rw [hdw] at h; exact absurd h (by simp)
  | cons d ds =>
    rw [hdw] at h
    have hd : decide (d.toNat ≤ 0x20) = false := dropWhile_head_false hdw
    have hdn : 0x20 < d.toNat := by simpa using hd
    have h9 : d ≠ Char.ofNat 9 := by
      intro he
      rw [he, show (Char.ofNat 9).toNat = 9 from rfl] at hdn
      omega
    have h10 : d ≠ Char.ofNat 10 := by
      intro he
      rw [he, show (Char.ofNat 10).toNat = 10 from rfl] at hdn
      omega
    have h13 : d ≠ Char.ofNat 13 := by
      intro he
      rw [he, show (Char.ofNat 13).toNat = 13 from rfl] at hdn
      omega
    rw [List.filter_cons, if_pos (by simp [h9, h10, h13])] at h
    simp only [List.head?_cons, Option.some.injEq] at h
    subst h
    exact hdn

theorem schemeSplit_no_colon {u : List Char} (h : splitFirst ':' u = none) :
    schemeSplit u = ([], u) := by
  rw [schemeSplit, h]

theorem schemeSplit_of_sep {s rest : List Char}
    (hcolon : ':' ∉ s)
    (hvalid : ∃ c cs, s = c :: cs ∧ c.isAlpha = true)
    (hall : ∀ x ∈ s, isSchemeChar x = true) :
    schemeSplit (s ++ ':' :: rest) = (s.map Char.toLower, rest) := by
  rw [schemeSplit, splitFirst_append rest hcolon]
  obtain ⟨c, cs, he, halpha⟩ := hvalid
  subst he
  show (if c.isAlpha && (c :: cs).all isSchemeChar
    then ((c :: cs).map Char.toLower, rest)
    else ([], (c :: cs) ++ ':' :: rest)) = ((c :: cs).map Char.toLower, rest)
  rw [if_pos]
  rw [halpha, Bool.true_and]
  exact List.all_eq_true.mpr (fun x hx => hall x hx)

theorem schemeSplit_invalid {u pre post : List Char}
    (h : splitFirst ':' u = some (pre, post))
    (hbad : pre = [] ∨ ∃ c cs, pre = c :: cs ∧
      (c.isAlpha = false ∨ ∃ x ∈ pre, isSchemeChar x = false)) :
    schemeSplit u = ([], u) := by
  rw [schemeSplit, h]
  rcases hbad with he | ⟨c, cs, he, hbad2⟩
  · subst he
    rfl
  · subst he
    show (if c.isAlpha && (c :: cs).all isSchemeChar
      then ((c :: cs).map Char.toLower, post) else ([], u)) = ([], u)
    rw [if_neg]
    intro hcond
    rw [Bool.and_eq_true] at hcond
    rcases hbad2 with hf | ⟨x, hx, hf⟩
    · rw [hcond.1] at hf
      exact absurd hf (by simp)
    · have := List.all_eq_true.mp hcond.2 x hx
      rw [this] at hf
      exact absurd hf (by simp)

theorem schemeSplit_slash {u : List Char} (h : u.head? = some '/') :
    schemeSplit u = ([], u) := by
  cases hsp : splitFirst ':' u with
  | none => exact schemeSplit_no_colon hsp
  | some ab =>
    obtain ⟨pre, post⟩ := ab
    obtain ⟨he, hni⟩ := splitFirst_eq_some hsp
    apply schemeSplit_invalid hsp
    cases pre with
    | nil =>
      exact Or.inl rfl
    | cons c cs =>
      right
      refine ⟨c, cs, rfl, Or.inr ⟨c, List.mem_cons_self _ _, ?_⟩⟩
      rw [he] at h
      simp only [List.cons_append, List.head?_cons, Option.some.injEq] at h
      rw [h]
      rfl

theorem hasTriSlash_cons {c : Char} {t : List Char} (h : hasTriSlash t = true) :
    hasTriSlash (c :: t) = true := by
  rw [hasTriSlash.eq_def]
  split
  · rfl
  · simp_all
  · simp_all

theorem hasTriSlash_app (a b : List Char) :
    hasTriSlash (a ++ '/' :: '/' :: '/' :: b) = true := by
  induction a with
  | nil => rfl
  | cons c cs ih => exact hasTriSlash_cons ih

theorem rstripSlash_self_of_rev_head {l : List Char}
    (h : ∀ c, l.reverse.head? = some c → c ≠ '/') : rstripSlash l = l := by
  rw [rstripSlash]
  cases hrv : l.reverse with
  | nil =>
    have : l = [] := by simpa using congrArg List.reverse hrv
    simp [this]
  | cons c cs =>
    rw [dropWhile_self_of_head (by simpa using h c (by rw [hrv]; rfl)), ← hrv,
      List.reverse_reverse]

theorem rev_head_of_rstripSlash_self {l : List Char} (h : rstripSlash l = l) :
    ∀ c, l.reverse.head? = some c → c ≠ '/' := by
  intro c hc he
  subst he
  rw [rstripSlash] at h
  have h2 : List.dropWhile (fun c => c == '/') l.reverse = l.reverse := by
    have := congrArg List.reverse h
    rwa [List.reverse_reverse] at this
  cases hrv : l.reverse with
  | nil => rw [hrv] at hc; exact absurd hc (by simp)
  | cons d ds =>
    rw [hrv] at hc h2
    simp only [List.head?_cons, Option.some.injEq] at hc
    subst hc
    rw [List.dropWhile_cons, if_pos (by simp)] at h2
    have hlen := congrArg List.length h2
    have hsub := (List.dropWhile_sublist (l := ds) (fun c => c == '/')).length_le
    simp only [List.length_cons] at hlen
    omega

theorem rstripSlash_suffix_stable {a p2 : List Char} (h : rstripSlash (a ++ p2) = a ++ p2)
    (hne : p2 ≠ []) : rstripSlash p2 = p2 := by
  apply rstripSlash_self_of_rev_head
  intro c hc
  apply rev_head_of_rstripSlash_self h c
  rw [List.reverse_append]
  cases hrv : p2.reverse with
  | nil => exact absurd (by simpa using congrArg List.reverse hrv) hne
  | cons d ds =>
    rw [hrv] at hc
    simp only [List.head?_cons, Option.some.injEq] at hc
    subst hc
    rfl


theorem notDelim_q : notDelim '?' = false := rfl

theorem urlsplitM_netloc (u0 s nl p2 q : List Char)
    (hclean : pyClean u0 = u0)
    (hscheme : schemeSplit u0 = (s, '/' :: '/' :: (nl ++ (p2 ++ (if q = [] then [] else '?' :: q)))))
    (hnl : ∀ x ∈ nl, notDelim x = true)
    (hp2head : ∀ c, p2.head? = some c → c = '/')
    (hp2 : ∀ x ∈ p2, x ≠ '#' ∧ x ≠ '?')
    (hq : ∀ x ∈ q, x ≠ '#') :
    urlsplitM u0 = ⟨s, nl, p2, q, []⟩ := by
  by_cases hqc : q = []
  · subst hqc
    have hscheme2 : schemeSplit u0 = (s, '/' :: '/' :: (nl ++ p2)) := by simpa using hscheme
    have htw0 : p2.takeWhile notDelim = [] := by
      cases hp2c : p2 with
      | nil => rfl
      | cons c t =>
        have hc : c = '/' := hp2head c (by rw [hp2c]; rfl)
        subst hc
        exact takeWhile_nil_of_head rfl
    have hdw0 : p2.dropWhile notDelim = p2 := by
      cases hp2c : p2 with
      | nil => rfl
      | cons c t =>
        have hc : c = '/' := hp2head c (by rw [hp2c]; rfl)
        subst hc
        exact dropWhile_self_of_head rfl
    have htw : (nl ++ p2).takeWhile notDelim = nl := by
      rw [takeWhile_append_all _ _ _ hnl, htw0, List.append_nil]
    have hdw : (nl ++ p2).dropWhile notDelim = p2 := by
      rw [dropWhile_append_all _ _ _ hnl, hdw0]
    have hfr : splitFirst '#' p2 = none :=
      splitFirst_not_mem (fun hm => (hp2 _ hm).1 rfl)
    have hqs : splitFirst '?' p2 = none :=
      splitFirst_not_mem (fun hm => (hp2 _ hm).2 rfl)
    rw [urlsplitM]
    simp only [hclean, hscheme2, List.take_succ_cons, List.take_zero, List.drop_succ_cons,
      List.drop_zero, beq_self_eq_true, if_true, htw, hdw, hfr, hqs]
  · have hscheme2 : schemeSplit u0 = (s, '/' :: '/' :: (nl ++ (p2 ++ '?' :: q))) := by
      simpa [if_neg hqc] using hscheme
    have hnp2 : ('?' : Char) ∉ p2 := fun hm => (hp2 _ hm).2 rfl
    have htw0 : (p2 ++ '?' :: q).takeWhile notDelim = [] := by
      cases hp2c : p2 with
      | nil => exact takeWhile_nil_of_head notDelim_q
      | cons c t =>
        have hc : c = '/' := hp2head c (by rw [hp2c]; rfl)
        subst hc
        exact takeWhile_nil_of_head rfl
    have hdw0 : (p2 ++ '?' :: q).dropWhile notDelim = p2 ++ '?' :: q := by
      cases hp2c : p2 with
      | nil => exact dropWhile_self_of_head notDelim_q
      | cons c t =>
        have hc : c = '/' := hp2head c (by rw [hp2c]; rfl)
        subst hc
        exact dropWhile_self_of_head rfl
    have htw : (nl ++ (p2 ++ '?' :: q)).takeWhile notDelim = nl := by
      rw [takeWhile_append_all _ _ _ hnl, htw0, List.append_nil]
    have hdw : (nl ++ (p2 ++ '?' :: q)).dropWhile notDelim = p2 ++ '?' :: q := by
      rw [dropWhile_append_all _ _ _ hnl, hdw0]
    have hfr : splitFirst '#' (p2 ++ '?' :: q) = none := by
      apply splitFirst_not_mem
      intro hm
      rcases List.mem_append.mp hm with h | h
      · exact (hp2 _ h).1 rfl
      · rcases List.mem_cons.mp h with h | h
        · exact absurd h (by decide)
        · exact hq _ h rfl
    have hqs : splitFirst '?' (p2 ++ '?' :: q) = some (p2, q) := splitFirst_append q hnp2
    rw [urlsplitM]
    simp only [hclean, hscheme2, List.take_succ_cons, List.take_zero, List.drop_succ_cons,
      List.drop_zero, beq_self_eq_true, if_true, htw, hdw, hfr, hqs]

theorem urlsplitM_nonetloc (u0 s p q : List Char)
    (hclean : pyClean u0 = u0)
    (hscheme : schemeSplit u0 = (s, p ++ (if q = [] then [] else '?' :: q)))
    (htake : (p ++ (if q = [] then [] else '?' :: q)).take 2 ≠ ['/', '/'])
    (hp : ∀ x ∈ p, x ≠ '#' ∧ x ≠ '?')
    (hq : ∀ x ∈ q, x ≠ '#') :
    urlsplitM u0 = ⟨s, [], p, q, []⟩ := by
  have hnp : ('?' : Char) ∉ p := fun hm => (hp _ hm).2 rfl
  by_cases hqc : q = []
  · subst hqc
    have hscheme2 : schemeSplit u0 = (s, p) := by simpa using hscheme
    have htake2 : (p.take 2 == ['/', '/']) = false := by
      rw [beq_eq_false_iff_ne]
      intro he
      apply htake
      simpa using he
    have hfr : splitFirst '#' p = none :=
      splitFirst_not_mem (fun hm => (hp _ hm).1 rfl)
    have hqs : splitFirst '?' p = none := splitFirst_not_mem hnp
    rw [urlsplitM]
    simp only [hclean, hscheme2, htake2, Bool.false_eq_true, if_false, hfr, hqs]
  · have hscheme2 : schemeSplit u0 = (s, p ++ '?' :: q) := by
      simpa [if_neg hqc] using hscheme
    have htake2 : ((p ++ '?' :: q).take 2 == ['/', '/']) = false := by
      rw [beq_eq_false_iff_ne]
      intro he
      apply htake
      simpa [if_neg hqc] using he
    have hfr : splitFirst '#' (p ++ '?' :: q) = none := by
      apply splitFirst_not_mem
      intro hm
      rcases List.mem_append.mp hm with h | h
      · exact (hp _ h).1 rfl
      · rcases List.mem_cons.mp h with h | h
        · exact absurd h (by decide)
        · exact hq _ h rfl
    have hqs : splitFirst '?' (p ++ '?' :: q) = some (p, q) := splitFirst_append q hnp
    rw [urlsplitM]
    simp only [hclean, hscheme2, htake2, Bool.false_eq_true, if_false, hfr, hqs]

theorem urlunsplitM_cond (s nl p q : List Char)
    (hcond : nl ≠ [] ∨ (s ≠ [] ∧ usesNetloc.contains s = true ∧ p.take 2 ≠ ['/', '/'])) :
    urlunsplitM s nl p q [] =
      (if s = [] then [] else s ++ [':']) ++
        ('/' :: '/' :: (nl ++ (if p ≠ [] ∧ p.take 1 ≠ ['/'] then '/' :: p else p))) ++
        (if q = [] then [] else '?' :: q) := by
  rw [urlunsplitM]
  simp only [if_pos hcond]
  split_ifs with h1 h2 h3 h4 h5 <;> simp_all [List.append_assoc]

theorem urlunsplitM_nocond (s nl p q : List Char)
    (hcond : ¬(nl ≠ [] ∨ (s ≠ [] ∧ usesNetloc.contains s = true ∧ p.take 2 ≠ ['/', '/']))) :
    urlunsplitM s nl p q [] =
      (if s = [] then [] else s ++ [':']) ++ p ++ (if q = [] then [] else '?' :: q) := by
  rw [urlunsplitM]
  simp only [if_neg hcond]
  split_ifs with h1 h2 h3 h4 h5 <;> simp_all [List.append_assoc]


theorem char_gt_ctl {x : Char} (h : 0x20 < x.toNat) :
    x ≠ Char.ofNat 9 ∧ x ≠ Char.ofNat 10 ∧ x ≠ Char.ofNat 13 := by
  refine ⟨?_, ?_, ?_⟩ <;> intro he <;> rw [he] at h <;> exact absurd h (by decide)

theorem isAlpha_gt {x : Char} (h : x.isAlpha = true) : 0x20 < x.toNat := by
  rcases (isAlpha_iff x).mp h with h2 | h2 <;> omega

theorem isSchemeChar_gt {x : Char} (h : isSchemeChar x = true) : 0x20 < x.toNat := by
  rcases (show ((x.isAlphanum = true ∨ x = '+') ∨ x = '-') ∨ x = '.' by
    simpa [isSchemeChar] using h) with ((h2 | h2) | h2) | h2
  · rcases (isAlphanum_iff x).mp h2 with h3 | h3 | h3 <;> omega
  · subst h2; decide
  · subst h2; decide
  · subst h2; decide

theorem urlparseM_of_split {u : List Char} {s nl p q f : List Char}
    (hsplit : urlsplitM u = ⟨s, nl, p, q, f⟩)
    (hsemi : (';' : Char) ∉ p) :
    urlparseM u = ⟨s, nl, p, [], q, f⟩ := by
  rw [urlparseM, hsplit]
  have hc : (p.contains ';') = false := by simpa using hsemi
  show (if usesParams.contains s && p.contains ';' then _ else _) = _
  rw [hc, Bool.and_false, if_neg (by simp)]

theorem normalizeUrlList_of_parse {u : List Char} {s nl p q f : List Char}
    (hne : u ≠ [])
    (hparse : urlparseM u = ⟨s, nl, p, [], q, f⟩) :
    normalizeUrlList u = urlunsplitM s nl (rstripSlash p)
      (if ((parseQsM q).filter (fun kv => !(trackingParams.contains kv.1))).isEmpty
        then [] else urlencodeM ((parseQsM q).filter (fun kv => !(trackingParams.contains kv.1)))) [] := by
  rw [normalizeUrlList, if_neg (by simpa using hne)]
  simp only [hparse]
  show urlunparseM s nl (rstripSlash p) [] _ [] = _
  rw [urlunparseM, if_neg (by simp)]


theorem normalize_unsplit_fix (s nl p q : List Char)
    (hs : s = [] ∨ ((∃ c cs, s = c :: cs ∧ c.isAlpha = true) ∧
      (∀ x ∈ s, isSchemeChar x = true) ∧ s.map Char.toLower = s))
    (hnl : ∀ x ∈ nl, notDelim x = true ∧
      x ≠ Char.ofNat 9 ∧ x ≠ Char.ofNat 10 ∧ x ≠ Char.ofNat 13)
    (hp : ∀ x ∈ p, x ≠ '#' ∧ x ≠ '?' ∧ x ≠ ';' ∧
      x ≠ Char.ofNat 9 ∧ x ≠ Char.ofNat 10 ∧ x ≠ Char.ofNat 13)
    (hq : q = [] ∨ ∃ d, QsWf d ∧ d ≠ [] ∧
      (∀ kv ∈ d, trackingParams.contains kv.1 = false) ∧ q = urlencodeM d)
    (hrp : rstripSlash p = p)
    (htri : p.take 2 = ['/', '/'] → ∃ c rest, p.drop 2 = c :: rest ∧ notDelim c = true)
    (hpcol : s = [] → nl = [] → ∀ pre post, splitFirst ':' p = some (pre, post) →
      pre = [] ∨ ∃ c cs, pre = c :: cs ∧ (c.isAlpha = false ∨ ∃ x ∈ pre, isSchemeChar x = false))
    (hphead : s = [] → nl = [] → ∀ c, p.head? = some c → 0x20 < c.toNat) :
    normalizeUrlList (urlunsplitM s nl p q []) = urlunsplitM s nl p q [] := by
  have hqchar : ∀ x ∈ q, 0x20 < x.toNat ∧ x ≠ '#' ∧ x ≠ '?' ∧ x ≠ '/' ∧ x ≠ ':' ∧
      x ≠ ';' ∧ x ≠ '[' ∧ x ≠ ']' := by
    rcases hq with hq0 | ⟨d, _, _, _, hqe⟩
    · subst hq0
      intro x hx
      exact absurd hx (List.not_mem_nil x)
    · intro x hx
      subst hqe
      exact urlencodeM_char hx
  have hquery : (if ((parseQsM q).filter (fun kv => !(trackingParams.contains kv.1))).isEmpty
      then [] else urlencodeM ((parseQsM q).filter (fun kv => !(trackingParams.contains kv.1)))) = q := by
    rcases hq with hq0 | ⟨d, hwf, hdne, hdtr, hqe⟩
    · subst hq0
      rfl
    · subst hqe
      rw [parseQs_encode hwf hdne]
      have hfd : d.filter (fun kv => !(trackingParams.contains kv.1)) = d :=
        List.filter_eq_self.mpr (fun kv hkv => by rw [hdtr kv hkv]; rfl)
      rw [hfd, if_neg (by simpa using hdne)]
  have hQctl : ∀ x ∈ (if q = [] then ([] : List Char) else '?' :: q),
      x ≠ Char.ofNat 9 ∧ x ≠ Char.ofNat 10 ∧ x ≠ Char.ofNat 13 := by
    intro x hx
    split_ifs at hx with hqc
    · exact absurd hx (List.not_mem_nil x)
    · rcases List.mem_cons.mp hx with he | hm
      · subst he
        exact ⟨by decide, by decide, by decide⟩
      · exact char_gt_ctl (hqchar x hm).1
  have hQnocolon : (':' : Char) ∉ (if q = [] then ([] : List Char) else '?' :: q) := by
    intro hm
    split_ifs at hm with hqc
    · exact absurd hm (List.not_mem_nil _)
    · rcases List.mem_cons.mp hm with he | hm2
      · exact absurd he (by decide)
      · exact (hqchar _ hm2).2.2.2.2.1 rfl
  have hschemectl : ∀ x ∈ s, x ≠ Char.ofNat 9 ∧ x ≠ Char.ofNat 10 ∧ x ≠ Char.ofNat 13 := by
    intro x hx
    rcases hs with he | hstr
    · subst he
      exact absurd hx (List.not_mem_nil x)
    · exact char_gt_ctl (isSchemeChar_gt (hstr.2.1 x hx))
  have hslash_ctl : ('/' : Char) ≠ Char.ofNat 9 ∧ ('/' : Char) ≠ Char.ofNat 10 ∧
      ('/' : Char) ≠ Char.ofNat 13 := ⟨by decide, by decide, by decide⟩
  have hcolon_ctl : (':' : Char) ≠ Char.ofNat 9 ∧ (':' : Char) ≠ Char.ofNat 10 ∧
      (':' : Char) ≠ Char.ofNat 13 := ⟨by decide, by decide, by decide⟩
  have hqfrag : ∀ x ∈ q, x ≠ '#' := fun x hx => (hqchar x hx).2.1
  by_cases hO : urlunsplitM s nl p q [] = []
  · rw [hO]
    rfl
  by_cases hcond : nl ≠ [] ∨ (s ≠ [] ∧ usesNetloc.contains s = true ∧ p.take 2 ≠ ['/', '/'])
  · -- netloc-reassembly case
    have hOeq := urlunsplitM_cond s nl p q hcond
    obtain ⟨S, hSdef⟩ : ∃ S, S = (if s = [] then ([] : List Char) else s ++ [':']) := ⟨_, rfl⟩
    obtain ⟨Qf, hQdef⟩ : ∃ Qf, Qf = (if q = [] then ([] : List Char) else '?' :: q) := ⟨_, rfl⟩
    obtain ⟨p2, hp2def⟩ : ∃ p2, p2 = (if p ≠ [] ∧ p.take 1 ≠ ['/'] then '/' :: p else p) := ⟨_, rfl⟩
    rw [← hSdef, ← hQdef, ← hp2def] at hOeq
    have hp2alt : (p2 = [] ∧ p = []) ∨ (p2 = p ∧ ∃ t, p = '/' :: t) ∨
        (p2 = '/' :: p ∧ p ≠ [] ∧ p.take 1 ≠ ['/']) := by
      rcases hpc : p with _ | ⟨c, t⟩
      · left
        refine ⟨?_, rfl⟩
        rw [hp2def, hpc]
        simp
      · by_cases hc : c = '/'
        · right; left
          subst hc
          refine ⟨?_, t, rfl⟩
          rw [hp2def, hpc]
          rw [if_neg (by simp)]
        · right; right
          have htk1 : (c :: t).take 1 ≠ ['/'] := by
            intro he
            apply hc
            simpa using he
          refine ⟨?_, by simp, ?_⟩
          · rw [hp2def, hpc, if_pos ⟨by simp, htk1⟩]
          · exact htk1
    have hp2head : ∀ c, p2.head? = some c → c = '/' := by
      intro c hc
      rcases hp2alt with ⟨h1, _⟩ | ⟨h1, t, ht⟩ | ⟨h1, _⟩
      · rw [h1] at hc
        exact absurd hc (by simp)
      · rw [h1, ht] at hc
        simp only [List.head?_cons, Option.some.injEq] at hc
        exact hc.symm
      · rw [h1] at hc
        simp only [List.head?_cons, Option.some.injEq] at hc
        exact hc.symm
    have hp2mem : ∀ x ∈ p2, x = '/' ∨ x ∈ p := by
      intro x hx
      rcases hp2alt with ⟨h1, _⟩ | ⟨h1, _⟩ | ⟨h1, _⟩
      · rw [h1] at hx
        exact absurd hx (List.not_mem_nil x)
      · rw [h1] at hx
        exact Or.inr hx
      · rw [h1] at hx
        rcases List.mem_cons.mp hx with he | hm
        · exact Or.inl he
        · exact Or.inr hm
    have hp2props : ∀ x ∈ p2, x ≠ '#' ∧ x ≠ '?' := by
      intro x hx
      rcases hp2mem x hx with he | hm
      · subst he
        exact ⟨by decide, by decide⟩
      · exact ⟨(hp x hm).1, (hp x hm).2.1⟩
    have hp2semi : (';' : Char) ∉ p2 := by
      intro hm
      rcases hp2mem _ hm with he | hm2
      · exact absurd he (by decide)
      · exact (hp _ hm2).2.2.1 rfl
    have hp2ctl : ∀ x ∈ p2, x ≠ Char.ofNat 9 ∧ x ≠ Char.ofNat 10 ∧ x ≠ Char.ofNat 13 := by
      intro x hx
      rcases hp2mem x hx with he | hm
      · subst he
        exact hslash_ctl
      · exact ⟨(hp x hm).2.2.2.1, (hp x hm).2.2.2.2.1, (hp x hm).2.2.2.2.2⟩
    have hrp2 : rstripSlash p2 = p2 := by
      rcases hp2alt with ⟨h1, _⟩ | ⟨h1, _⟩ | ⟨h1, hne, _⟩
      · rw [h1]
        rfl
      · rw [h1]
        exact hrp
      · rw [h1]
        exact rstripSlash_cons_slash hrp hne
    have hOhead : ∀ c, (S ++ ('/' :: '/' :: (nl ++ p2)) ++ Qf).head? = some c → 0x20 < c.toNat := by
      intro c hc
      rcases hs with hse | hstr
      · subst hse
        rw [hSdef, if_pos rfl] at hc
        simp only [List.nil_append, List.cons_append, List.head?_cons, Option.some.injEq] at hc
        subst hc
        decide
      · obtain ⟨⟨c0, cs0, hse2, halpha⟩, hall, hlow⟩ := hstr
        rw [hSdef, if_neg (by rw [hse2]; simp), hse2] at hc
        simp only [List.cons_append, List.head?_cons, Option.some.injEq] at hc
        subst hc
        exact isAlpha_gt halpha
    have hOctl : ∀ x ∈ S ++ ('/' :: '/' :: (nl ++ p2)) ++ Qf,
        x ≠ Char.ofNat 9 ∧ x ≠ Char.ofNat 10 ∧ x ≠ Char.ofNat 13 := by
      intro x hx
      rcases List.mem_append.mp hx with hx1 | hxQ
      · rcases List.mem_append.mp hx1 with hxS | hxC
        · rw [hSdef] at hxS
          split_ifs at hxS with hse
          · exact absurd hxS (List.not_mem_nil x)
          · rcases List.mem_append.mp hxS with hm | hm
            · exact hschemectl x hm
            · rw [List.mem_singleton.mp hm]
              exact hcolon_ctl
        · rcases List.mem_cons.mp hxC with he | hxC2
          · subst he
            exact hslash_ctl
          · rcases List.mem_cons.mp hxC2 with he | hxC3
            · subst he
              exact hslash_ctl
            · rcases List.mem_append.mp hxC3 with hm | hm
              · exact ⟨(hnl x hm).2.1, (hnl x hm).2.2.1, (hnl x hm).2.2.2⟩
              · exact hp2ctl x hm
      · rw [hQdef] at hxQ
        exact hQctl x hxQ
    have hOclean : pyClean (S ++ ('/' :: '/' :: (nl ++ p2)) ++ Qf) =
        S ++ ('/' :: '/' :: (nl ++ p2)) ++ Qf := pyClean_eq_self hOhead hOctl
    have hss : schemeSplit (S ++ ('/' :: '/' :: (nl ++ p2)) ++ Qf)
        = (s, ('/' :: '/' :: (nl ++ p2)) ++ Qf) := by
      rcases hs with hse | hstr
      · subst hse
        rw [hSdef, if_pos rfl, List.nil_append]
        exact schemeSplit_slash (by simp [List.cons_append])
      · obtain ⟨⟨c0, cs0, hse2, halpha⟩, hall, hlow⟩ := hstr
        have hsne : s ≠ [] := by rw [hse2]; simp
        rw [hSdef, if_neg hsne]
        have hO2 : (s ++ [':']) ++ ('/' :: '/' :: (nl ++ p2)) ++ Qf
            = s ++ ':' :: (('/' :: '/' :: (nl ++ p2)) ++ Qf) := by simp
        rw [hO2, schemeSplit_of_sep
          (fun hm => absurd (hall ':' hm) (by decide)) ⟨c0, cs0, hse2, halpha⟩ hall, hlow]
    have hsplit : urlsplitM (S ++ ('/' :: '/' :: (nl ++ p2)) ++ Qf) = ⟨s, nl, p2, q, []⟩ := by
      apply urlsplitM_netloc _ s nl p2 q hOclean
      · rw [← hQdef, hss]
        simp [List.cons_append, List.append_assoc]
      · exact fun x hx => (hnl x hx).1
      · exact hp2head
      · exact hp2props
      · exact hqfrag
    have hparse := urlparseM_of_split hsplit hp2semi
    rw [hOeq]
    rw [normalizeUrlList_of_parse (by rw [← hOeq]; exact hO) hparse]
    rw [hquery, hrp2]
    have hcond2 : nl ≠ [] ∨ (s ≠ [] ∧ usesNetloc.contains s = true ∧ p2.take 2 ≠ ['/', '/']) := by
      rcases hcond with h1 | ⟨hsne, hct, htk⟩
      · exact Or.inl h1
      · right
        refine ⟨hsne, hct, ?_⟩
        rcases hp2alt with ⟨h1, h2⟩ | ⟨h1, t, ht⟩ | ⟨h1, hne, htk1⟩
        · rw [h1]
          simp
        · rw [h1]
          exact htk
        · rw [h1]
          intro he
          apply htk1
          rcases hpc2 : p with _ | ⟨c, t⟩
          · exact absurd hpc2 hne
          · rw [hpc2] at he
            have hc : c = '/' := by simpa using he
            simp [hc]
    rw [urlunsplitM_cond s nl p2 q hcond2]
    have hprep : (if p2 ≠ [] ∧ p2.take 1 ≠ ['/'] then '/' :: p2 else p2) = p2 := by
      rcases hp2alt with ⟨h1, _⟩ | ⟨h1, t, ht⟩ | ⟨h1, _⟩
      · rw [h1]
        simp
      · rw [h1, ht]
        rw [if_neg (by simp)]
      · rw [h1]
        rw [if_neg (by simp)]
    rw [hprep, ← hSdef, ← hQdef]
  · -- no-netloc case
    have hcondneg := hcond
    push_neg at hcond
    obtain ⟨hnl0, hrest⟩ := hcond
    subst hnl0
    have hOeq := urlunsplitM_nocond s [] p q hcondneg
    obtain ⟨S, hSdef⟩ : ∃ S, S = (if s = [] then ([] : List Char) else s ++ [':']) := ⟨_, rfl⟩
    obtain ⟨Qf, hQdef⟩ : ∃ Qf, Qf = (if q = [] then ([] : List Char) else '?' :: q) := ⟨_, rfl⟩
    rw [← hSdef, ← hQdef] at hOeq
    have hOhead : ∀ c, (S ++ p ++ Qf).head? = some c → 0x20 < c.toNat := by
      intro c hc
      rcases hs with hse | hstr
      · subst hse
        rw [hSdef, if_pos rfl, List.nil_append] at hc
        rcases hpc : p with _ | ⟨e, es⟩
        · rw [hpc, List.nil_append] at hc
          rw [hQdef] at hc
          split_ifs at hc with hqc
          · exact absurd hc (by simp)
          · simp only [List.head?_cons, Option.some.injEq] at hc
            subst hc
            decide
        · rw [hpc] at hc
          simp only [List.cons_append, List.head?_cons, Option.some.injEq] at hc
          have h0 : 0x20 < e.toNat := hphead rfl rfl e (by rw [hpc]; rfl)
          rw [← hc]
          exact h0
      · obtain ⟨⟨c0, cs0, hse2, halpha⟩, hall, hlow⟩ := hstr
        rw [hSdef, if_neg (by rw [hse2]; simp), hse2] at hc
        simp only [List.cons_append, List.head?_cons, Option.some.injEq] at hc
        subst hc
        exact isAlpha_gt halpha
    have hOctl : ∀ x ∈ S ++ p ++ Qf,
        x ≠ Char.ofNat 9 ∧ x ≠ Char.ofNat 10 ∧ x ≠ Char.ofNat 13 := by
      intro x hx
      rcases List.mem_append.mp hx with hx1 | hxQ
      · rcases List.mem_append.mp hx1 with hxS | hxP
        · rw [hSdef] at hxS
          split_ifs at hxS with hse
          · exact absurd hxS (List.not_mem_nil x)
          · rcases List.mem_append.mp hxS with hm | hm
            · exact hschemectl x hm
            · rw [List.mem_singleton.mp hm]
              exact hcolon_ctl
        · exact ⟨(hp x hxP).2.2.2.1, (hp x hxP).2.2.2.2.1, (hp x hxP).2.2.2.2.2⟩
      · rw [hQdef] at hxQ
        exact hQctl x hxQ
    have hOclean : pyClean (S ++ p ++ Qf) = S ++ p ++ Qf := pyClean_eq_self hOhead hOctl
    have hpprops : ∀ x ∈ p, x ≠ '#' ∧ x ≠ '?' :=
      fun x hx => ⟨(hp x hx).1, (hp x hx).2.1⟩
    have hpsemi : (';' : Char) ∉ p := fun hm => (hp _ hm).2.2.1 rfl
    by_cases hptk : p.take 2 = ['/', '/']
    · -- path itself starts with a double slash: the second parse absorbs a netloc
      obtain ⟨c, rest, hdrop, hcnd⟩ := htri hptk
      have hpshape : p = '/' :: '/' :: (c :: rest) := by
        have h0 := List.take_append_drop 2 p
        rw [hptk, hdrop] at h0
        exact h0.symm
      obtain ⟨nl2, hnl2def⟩ : ∃ x, x = (c :: rest).takeWhile notDelim := ⟨_, rfl⟩
      obtain ⟨p3, hp3def⟩ : ∃ x, x = (c :: rest).dropWhile notDelim := ⟨_, rfl⟩
      have hR : nl2 ++ p3 = c :: rest := by
        rw [hnl2def, hp3def]
        exact List.takeWhile_append_dropWhile notDelim (c :: rest)
      have hnl2props : ∀ x ∈ nl2, notDelim x = true := by
        rw [hnl2def]
        intro x hx
        exact List.mem_takeWhile_imp hx
      have hmem_p : ∀ x ∈ (c :: rest), x ∈ p := by
        rw [hpshape]
        intro x hx
        simp [hx]
      have hnl2mem : ∀ x ∈ nl2, x ∈ p := fun x hx =>
        hmem_p x (by rw [← hR]; exact List.mem_append.mpr (Or.inl hx))
      have hp3mem : ∀ x ∈ p3, x ∈ p := fun x hx =>
        hmem_p x (by rw [← hR]; exact List.mem_append.mpr (Or.inr hx))
      have hp3head : ∀ d, p3.head? = some d → d = '/' := by
        intro d hd
        have hdmem : d ∈ p := hp3mem d (List.mem_of_mem_head? hd)
        have hfalse : notDelim d = false := by
          rcases hcase : p3 with _ | ⟨e, es⟩
          · rw [hcase] at hd
            exact absurd hd (by simp)
          · rw [hcase] at hd
            simp only [List.head?_cons, Option.some.injEq] at hd
            subst hd
            apply dropWhile_head_false (u := c :: rest)
            rw [← hp3def]
            exact hcase
        have hor : d = '/' ∨ d = '?' ∨ d = '#' := by
          by_contra hno
          push_neg at hno
          have h1 : (d == '/') = false := by simp [hno.1]
          have h2 : (d == '?') = false := by simp [hno.2.1]
          have h3 : (d == '#') = false := by simp [hno.2.2]
          simp only [notDelim, h1, h2, h3] at hfalse
          simp at hfalse
        rcases hor with h | h | h
        · exact h
        · exact absurd h (hp d hdmem).2.1
        · exact absurd h (hp d hdmem).1
      have hnl2ne : nl2 ≠ [] := by
        rw [hnl2def, List.takeWhile_cons, hcnd]
        simp
      have hrp3 : rstripSlash p3 = p3 := by
        rcases hcase : p3 with _ | ⟨e, es⟩
        · rfl
        · rw [← hcase]
          apply rstripSlash_suffix_stable (a := '/' :: '/' :: nl2)
          · have hpa : ('/' :: '/' :: nl2) ++ p3 = p := by
              simp only [List.cons_append]
              rw [hR, ← hpshape]
            rw [hpa]
            exact hrp
          · rw [hcase]
            simp
      have hp3props : ∀ x ∈ p3, x ≠ '#' ∧ x ≠ '?' := fun x hx => hpprops x (hp3mem x hx)
      have hp3semi : (';' : Char) ∉ p3 := fun hm => hpsemi (hp3mem _ hm)
      have hss : schemeSplit (S ++ p ++ Qf) = (s, p ++ Qf) := by
        rcases hs with hse | hstr
        · subst hse
          rw [hSdef, if_pos rfl, List.nil_append]
          exact schemeSplit_slash (by rw [hpshape]; simp [List.cons_append])
        · obtain ⟨⟨c0, cs0, hse2, halpha⟩, hall, hlow⟩ := hstr
          have hsne : s ≠ [] := by rw [hse2]; simp
          rw [hSdef, if_neg hsne]
          have hO2 : (s ++ [':']) ++ p ++ Qf = s ++ ':' :: (p ++ Qf) := by simp
          rw [hO2, schemeSplit_of_sep
            (fun hm => absurd (hall ':' hm) (by decide)) ⟨c0, cs0, hse2, halpha⟩ hall, hlow]
      have hsplit : urlsplitM (S ++ p ++ Qf) = ⟨s, nl2, p3, q, []⟩ := by
        apply urlsplitM_netloc _ s nl2 p3 q hOclean
        · rw [← hQdef, hss, hpshape]
          have : (c :: rest) = nl2 ++ p3 := hR.symm
          rw [show ('/' :: '/' :: (c :: rest)) ++ Qf = '/' :: '/' :: (nl2 ++ (p3 ++ Qf)) by
            rw [← hR]; simp [List.cons_append, List.append_assoc]]
        · exact hnl2props
        · exact hp3head
        · exact hp3props
        · exact hqfrag
      have hparse := urlparseM_of_split hsplit hp3semi
      rw [hOeq]
      rw [normalizeUrlList_of_parse (by rw [← hOeq]; exact hO) hparse]
      rw [hquery, hrp3]
      rw [urlunsplitM_cond s nl2 p3 q (Or.inl hnl2ne)]
      have hprep3 : (if p3 ≠ [] ∧ p3.take 1 ≠ ['/'] then '/' :: p3 else p3) = p3 := by
        rcases hcase : p3 with _ | ⟨e, es⟩
        · simp
        · have he : e = '/' := hp3head e (by rw [hcase]; rfl)
          subst he
          rw [if_neg (by simp)]
      rw [hprep3, ← hSdef, ← hQdef]
      rw [show '/' :: '/' :: (nl2 ++ p3) = p by rw [hR, ← hpshape]]
    · -- plain path: no netloc on either pass
      have hss : schemeSplit (S ++ p ++ Qf) = (s, p ++ Qf) := by
        rcases hs with hse | hstr
        · subst hse
          rw [hSdef, if_pos rfl, List.nil_append]
          cases hsp : splitFirst ':' p with
          | some ab =>
            obtain ⟨pre, post⟩ := ab
            exact schemeSplit_invalid (splitFirst_app_left hsp Qf)
              (hpcol rfl rfl pre post hsp)
          | none =>
            apply schemeSplit_no_colon
            apply splitFirst_not_mem
            intro hm
            rcases List.mem_append.mp hm with hm1 | hm2
            · exact splitFirst_none hsp hm1
            · rw [hQdef] at hm2
              exact hQnocolon hm2
        · obtain ⟨⟨c0, cs0, hse2, halpha⟩, hall, hlow⟩ := hstr
          have hsne : s ≠ [] := by rw [hse2]; simp
          rw [hSdef, if_neg hsne]
          have hO2 : (s ++ [':']) ++ p ++ Qf = s ++ ':' :: (p ++ Qf) := by simp
          rw [hO2, schemeSplit_of_sep
            (fun hm => absurd (hall ':' hm) (by decide)) ⟨c0, cs0, hse2, halpha⟩ hall, hlow]
      have htake : (p ++ (if q = [] then ([] : List Char) else '?' :: q)).take 2 ≠ ['/', '/'] := by
        rcases hpc : p with _ | ⟨c1, t1⟩
        · rw [List.nil_append]
          split_ifs with hqc
          · simp
          · intro he
            simp only [List.take_succ_cons] at he
            injection he with he1 _
            exact absurd he1 (by decide)
        · rcases ht1 : t1 with _ | ⟨c2, t2⟩
          · have hc1 : c1 ≠ '/' := by
              intro he
              subst he
              have := rev_head_of_rstripSlash_self hrp '/'
              apply this _ rfl
              rw [hpc, ht1]
              rfl
            intro he
            simp only [List.cons_append, List.take_succ_cons] at he
            injection he with he1 _
            exact hc1 he1
          · intro he
            apply hptk
            rw [hpc, ht1]
            simpa using he
      have hsplit : urlsplitM (S ++ p ++ Qf) = ⟨s, [], p, q, []⟩ := by
        apply urlsplitM_nonetloc _ s p q hOclean
        · rw [← hQdef]
          exact hss
        · exact htake
        · exact hpprops
        · exact hqfrag
      have hparse := urlparseM_of_split hsplit hpsemi
      rw [hOeq]
      rw [normalizeUrlList_of_parse (by rw [← hOeq]; exact hO) hparse]
      rw [hquery, hrp]
      rw [urlunsplitM_nocond s [] p q hcondneg, ← hSdef, ← hQdef]


theorem schemeSplit_stage1 (cu : List Char) :
    ∃ s u2, schemeSplit cu = (s, u2) ∧ (∃ a0, cu = a0 ++ u2) ∧
      (s = [] ∨ ((∃ c cs, s = c :: cs ∧ c.isAlpha = true) ∧
        (∀ x ∈ s, isSchemeChar x = true) ∧ s.map Char.toLower = s)) ∧
      (s = [] → u2 = cu ∧ ((':' ∉ cu) ∨ ∃ pre0 post0,
        splitFirst ':' cu = some (pre0, post0) ∧
        (pre0 = [] ∨ ∃ c cs, pre0 = c :: cs ∧
          (c.isAlpha = false ∨ ∃ x ∈ pre0, isSchemeChar x = false)))) := by
  cases hsp : splitFirst ':' cu with
  | none =>
    exact ⟨[], cu, schemeSplit_no_colon hsp, ⟨[], rfl⟩, Or.inl rfl,
      fun _ => ⟨rfl, Or.inl (splitFirst_none hsp)⟩⟩
  | some ab =>
    obtain ⟨pre, post⟩ := ab
    obtain ⟨hcueq, hprecolon⟩ := splitFirst_eq_some hsp
    cases pre with
    | nil =>
      exact ⟨[], cu, schemeSplit_invalid hsp (Or.inl rfl), ⟨[], rfl⟩, Or.inl rfl,
        fun _ => ⟨rfl, Or.inr ⟨[], post, rfl, Or.inl rfl⟩⟩⟩
    | cons c cs =>
      by_cases hcv : (c.isAlpha && (c :: cs).all isSchemeChar) = true
      · have hcv2 : c.isAlpha = true ∧ (c :: cs).all isSchemeChar = true := by
          rw [← Bool.and_eq_true]
          exact hcv
        have hss2 : schemeSplit cu = ((c :: cs).map Char.toLower, post) := by
          rw [schemeSplit, hsp]
          show (if c.isAlpha && (c :: cs).all isSchemeChar
            then ((c :: cs).map Char.toLower, post) else ([], cu)) = _
          rw [if_pos hcv]
        refine ⟨(c :: cs).map Char.toLower, post, hss2,
          ⟨(c :: cs) ++ [':'], by rw [hcueq]; simp⟩, ?_, ?_⟩
        · right
          refine ⟨?_, ?_, ?_⟩
          · exact ⟨Char.toLower c, cs.map Char.toLower, by simp, isAlpha_toLower hcv2.1⟩
          · intro x hx
            rw [List.mem_map] at hx
            obtain ⟨y, hy, hxy⟩ := hx
            rw [← hxy]
            exact isSchemeChar_toLower (List.all_eq_true.mp hcv2.2 y hy)
          · rw [List.map_map]
            apply List.map_congr_left
            intro a _
            exact toLower_toLower a
        · intro hse
          exfalso
          simp at hse
      · have hbad : (c :: cs) = [] ∨ ∃ c2 cs2, (c :: cs) = c2 :: cs2 ∧
            (c2.isAlpha = false ∨ ∃ x ∈ (c :: cs), isSchemeChar x = false) := by
          right
          refine ⟨c, cs, rfl, ?_⟩
          by_cases ha : c.isAlpha = true
          · right
            by_contra hno
            push_neg at hno
            apply hcv
            rw [ha, Bool.true_and, List.all_eq_true]
            intro x hx
            have h2 := hno x hx
            cases hb : isSchemeChar x with
            | false => exact absurd hb h2
            | true => rfl
          · left
            simpa using ha
        exact ⟨[], cu, schemeSplit_invalid hsp hbad, ⟨[], rfl⟩, Or.inl rfl,
          fun _ => ⟨rfl, Or.inr ⟨c :: cs, post, rfl, hbad⟩⟩⟩

theorem urlsplitM_parts (l : List Char) {cu s u2 : List Char}
    (hcu : pyClean l = cu) (hss : schemeSplit cu = (s, u2)) :
    ∃ nl u3 u4 p q f,
      urlsplitM l = ⟨s, nl, p, q, f⟩ ∧
      ((u2.take 2 = ['/', '/'] ∧ nl = (u2.drop 2).takeWhile notDelim ∧
         u3 = (u2.drop 2).dropWhile notDelim) ∨
       (u2.take 2 ≠ ['/', '/'] ∧ nl = [] ∧ u3 = u2)) ∧
      ((splitFirst '#' u3 = none ∧ u4 = u3 ∧ f = []) ∨ splitFirst '#' u3 = some (u4, f)) ∧
      ((splitFirst '?' u4 = none ∧ p = u4 ∧ q = []) ∨ splitFirst '?' u4 = some (p, q)) := by
  by_cases hhn : u2.take 2 = ['/', '/']
  · have hbq : (u2.take 2 == ['/', '/']) = true := by simpa using hhn
    cases hpf : splitFirst '#' ((u2.drop 2).dropWhile notDelim) with
    | none =>
      cases hpq : splitFirst '?' ((u2.drop 2).dropWhile notDelim) with
      | none =>
        refine ⟨(u2.drop 2).takeWhile notDelim, (u2.drop 2).dropWhile notDelim,
          (u2.drop 2).dropWhile notDelim, (u2.drop 2).dropWhile notDelim, [], [], ?_,
          Or.inl ⟨hhn, rfl, rfl⟩, Or.inl ⟨hpf, rfl, rfl⟩, Or.inl ⟨hpq, rfl, rfl⟩⟩
        rw [urlsplitM]
        simp only [hcu, hss, hbq, if_true, hpf, hpq]
      | some pq =>
        obtain ⟨pp, qq⟩ := pq
        refine ⟨(u2.drop 2).takeWhile notDelim, (u2.drop 2).dropWhile notDelim,
          (u2.drop 2).dropWhile notDelim, pp, qq, [], ?_,
          Or.inl ⟨hhn, rfl, rfl⟩, Or.inl ⟨hpf, rfl, rfl⟩, Or.inr hpq⟩
        rw [urlsplitM]
        simp only [hcu, hss, hbq, if_true, hpf, hpq]
    | some pf =>
      obtain ⟨u4, f⟩ := pf
      cases hpq : splitFirst '?' u4 with
      | none =>
        refine ⟨(u2.drop 2).takeWhile notDelim, (u2.drop 2).dropWhile notDelim, u4, u4, [], f, ?_,
          Or.inl ⟨hhn, rfl, rfl⟩, Or.inr hpf, Or.inl ⟨hpq, rfl, rfl⟩⟩
        rw [urlsplitM]
        simp only [hcu, hss, hbq, if_true, hpf, hpq]
      | some pq =>
        obtain ⟨pp, qq⟩ := pq
        refine ⟨(u2.drop 2).takeWhile notDelim, (u2.drop 2).dropWhile notDelim, u4, pp, qq, f, ?_,
          Or.inl ⟨hhn, rfl, rfl⟩, Or.inr hpf, Or.inr hpq⟩
        rw [urlsplitM]
        simp only [hcu, hss, hbq, if_true, hpf, hpq]
  · have hbq : (u2.take 2 == ['/', '/']) = false := by
      rw [beq_eq_false_iff_ne]
      exact hhn
    cases hpf : splitFirst '#' u2 with
    | none =>
      cases hpq : splitFirst '?' u2 with
      | none =>
        refine ⟨[], u2, u2, u2, [], [], ?_,
          Or.inr ⟨hhn, rfl, rfl⟩, Or.inl ⟨hpf, rfl, rfl⟩, Or.inl ⟨hpq, rfl, rfl⟩⟩
        rw [urlsplitM]
        simp only [hcu, hss, hbq, Bool.false_eq_true, if_false, hpf, hpq]
      | some pq =>
        obtain ⟨pp, qq⟩ := pq
        refine ⟨[], u2, u2, pp, qq, [], ?_,
          Or.inr ⟨hhn, rfl, rfl⟩, Or.inl ⟨hpf, rfl, rfl⟩, Or.inr hpq⟩
        rw [urlsplitM]
        simp only [hcu, hss, hbq, Bool.false_eq_true, if_false, hpf, hpq]
    | some pf =>
      obtain ⟨u4, f⟩ := pf
      cases hpq : splitFirst '?' u4 with
      | none =>
        refine ⟨[], u2, u4, u4, [], f, ?_,
          Or.inr ⟨hhn, rfl, rfl⟩, Or.inr hpf, Or.inl ⟨hpq, rfl, rfl⟩⟩
        rw [urlsplitM]
        simp only [hcu, hss, hbq, Bool.false_eq_true, if_false, hpf, hpq]
      | some pq =>
        obtain ⟨pp, qq⟩ := pq
        refine ⟨[], u2, u4, pp, qq, f, ?_,
          Or.inr ⟨hhn, rfl, rfl⟩, Or.inr hpf, Or.inr hpq⟩
        rw [urlsplitM]
        simp only [hcu, hss, hbq, Bool.false_eq_true, if_false, hpf, hpq]


theorem head_append_left {a b : List Char} (h : a ≠ []) : (a ++ b).head? = a.head? := by
  cases a with
  | nil => exact absurd rfl h
  | cons c cs => rfl

theorem normalizeUrlList_idem {l : List Char}
    (hsemi : (';' : Char) ∉ pyClean l)
    (htri : hasTriSlash (pyClean l) = false) :
    normalizeUrlList (normalizeUrlList l) = normalizeUrlList l := by
  by_cases hl0 : l = []
  · subst hl0
    rfl
  obtain ⟨cu, hcu⟩ : ∃ cu, pyClean l = cu := ⟨_, rfl⟩
  rw [hcu] at hsemi htri
  obtain ⟨s, u2, hss, ⟨a0, ha0⟩, hsfacts, hsnil⟩ := schemeSplit_stage1 cu
  obtain ⟨nl, u3, u4, p1, q1, f1, hsplit, hnlcase, hfcase, hqcase⟩ := urlsplitM_parts l hcu hss
  have hu2cu : ∀ x ∈ u2, x ∈ cu := by
    rw [ha0]
    intro x hx
    simp [hx]
  have hu3u2 : ∀ x ∈ u3, x ∈ u2 := by
    rcases hnlcase with ⟨_, _, h3⟩ | ⟨_, _, h3⟩
    · rw [h3]
      intro x hx
      exact List.mem_of_mem_drop ((List.dropWhile_sublist _).mem hx)
    · rw [h3]
      intro x hx
      exact hx
  obtain ⟨b1, hb1⟩ : ∃ b1, u3 = u4 ++ b1 := by
    rcases hfcase with ⟨_, h4, _⟩ | h4
    · exact ⟨[], by rw [h4, List.append_nil]⟩
    · obtain ⟨he, _⟩ := splitFirst_eq_some h4
      exact ⟨'#' :: f1, he⟩
  obtain ⟨b2, hb2⟩ : ∃ b2, u4 = p1 ++ b2 := by
    rcases hqcase with ⟨_, h4, _⟩ | h4
    · exact ⟨[], by rw [h4, List.append_nil]⟩
    · obtain ⟨he, _⟩ := splitFirst_eq_some h4
      exact ⟨'?' :: q1, he⟩
  have hp1u3 : ∀ x ∈ p1, x ∈ u3 := by
    intro x hx
    rw [hb1, hb2]
    simp [hx]
  have hp1cu : ∀ x ∈ p1, x ∈ cu := fun x hx => hu2cu x (hu3u2 x (hp1u3 x hx))
  have hhash : ('#' : Char) ∉ u4 := by
    rcases hfcase with ⟨h4none, h4, _⟩ | h4
    · rw [h4]
      exact splitFirst_none h4none
    · exact (splitFirst_eq_some h4).2
  have hqm : ('?' : Char) ∉ p1 := by
    rcases hqcase with ⟨h4none, h4, _⟩ | h4
    · rw [h4]
      exact splitFirst_none h4none
    · exact (splitFirst_eq_some h4).2
  have hhashp : ('#' : Char) ∉ p1 := fun hm => hhash (by rw [hb2]; simp [hm])
  have hp1props : ∀ x ∈ p1, x ≠ '#' ∧ x ≠ '?' ∧ x ≠ ';' ∧
      x ≠ Char.ofNat 9 ∧ x ≠ Char.ofNat 10 ∧ x ≠ Char.ofNat 13 := by
    intro x hx
    have hctl := pyClean_no_ctl (show x ∈ pyClean l by rw [hcu]; exact hp1cu x hx)
    exact ⟨fun he => hhashp (he ▸ hx), fun he => hqm (he ▸ hx),
      fun he => hsemi (he ▸ hp1cu x hx), hctl.1, hctl.2.1, hctl.2.2⟩
  have hnlprops : ∀ x ∈ nl, notDelim x = true ∧
      x ≠ Char.ofNat 9 ∧ x ≠ Char.ofNat 10 ∧ x ≠ Char.ofNat 13 := by
    intro x hx
    rcases hnlcase with ⟨_, h2, _⟩ | ⟨_, h2, _⟩
    · rw [h2] at hx
      have hd := List.mem_takeWhile_imp hx
      have hmem : x ∈ cu :=
        hu2cu x (List.mem_of_mem_drop ((List.takeWhile_sublist _).mem hx))
      have hctl := pyClean_no_ctl (show x ∈ pyClean l by rw [hcu]; exact hmem)
      exact ⟨hd, hctl⟩
    · rw [h2] at hx
      exact absurd hx (List.not_mem_nil x)
  have hparse : urlparseM l = ⟨s, nl, p1, [], q1, f1⟩ :=
    urlparseM_of_split hsplit (fun hm => hsemi (hp1cu _ hm))
  obtain ⟨P, hP⟩ : ∃ P, P = rstripSlash p1 := ⟨_, rfl⟩
  obtain ⟨Q2, hQ2⟩ : ∃ Q2, Q2 =
      (if ((parseQsM q1).filter (fun kv => !(trackingParams.contains kv.1))).isEmpty
        then [] else urlencodeM ((parseQsM q1).filter (fun kv => !(trackingParams.contains kv.1)))) :=
    ⟨_, rfl⟩
  have hnorm : normalizeUrlList l = urlunsplitM s nl P Q2 [] := by
    rw [normalizeUrlList_of_parse hl0 hparse, ← hP, ← hQ2]
  have hheadchain : ∀ c, p1.head? = some c → u3.head? = some c := by
    intro c hc
    have hp1ne : p1 ≠ [] := by
      intro he
      rw [he] at hc
      exact absurd hc (by simp)
    rw [hb1, hb2, List.append_assoc, head_append_left hp1ne]
    exact hc
  have hheadslash : u3 = (u2.drop 2).dropWhile notDelim →
      ∀ c, p1.head? = some c → c = '/' := by
    intro h32 c hc
    have hu3h := hheadchain c hc
    rw [h32] at hu3h
    have hcd : notDelim c = false := by
      cases hdw3 : (u2.drop 2).dropWhile notDelim with
      | nil =>
        rw [hdw3] at hu3h
        exact absurd hu3h (by simp)
      | cons e es =>
        rw [hdw3] at hu3h
        simp only [List.head?_cons, Option.some.injEq] at hu3h
        exact hu3h ▸ dropWhile_head_false hdw3
    have hcp1 : c ∈ p1 := List.mem_of_mem_head? hc
    have h1 := (hp1props c hcp1).1
    have h2 := (hp1props c hcp1).2.1
    by_contra hcs
    have hnd : notDelim c = true := by simp [notDelim, hcs, h1, h2]
    rw [hnd] at hcd
    exact absurd hcd (by decide)
  have hpD : ∀ x ∈ P, x ≠ '#' ∧ x ≠ '?' ∧ x ≠ ';' ∧
      x ≠ Char.ofNat 9 ∧ x ≠ Char.ofNat 10 ∧ x ≠ Char.ofNat 13 := by
    intro x hx
    rw [hP] at hx
    exact hp1props x (rstripSlash_mem hx)
  have hqD : Q2 = [] ∨ ∃ d, QsWf d ∧ d ≠ [] ∧
      (∀ kv ∈ d, trackingParams.contains kv.1 = false) ∧ Q2 = urlencodeM d := by
    by_cases hic : ((parseQsM q1).filter (fun kv => !(trackingParams.contains kv.1))).isEmpty = true
    · left
      rw [hQ2, if_pos hic]
    · right
      refine ⟨(parseQsM q1).filter (fun kv => !(trackingParams.contains kv.1)),
        QsWf_filter (parseQsM_wf q1) _, by simpa using hic, ?_, by rw [hQ2, if_neg hic]⟩
      intro kv hkv
      have h2 := List.of_mem_filter hkv
      simpa using h2
  have hrpD : rstripSlash P = P := by
    rw [hP]
    exact rstripSlash_idem p1
  have htriD : P.take 2 = ['/', '/'] → ∃ c rest, P.drop 2 = c :: rest ∧ notDelim c = true := by
    intro htk
    rcases hdrop : P.drop 2 with _ | ⟨c, rest⟩
    · exfalso
      have hPfull := List.take_append_drop 2 P
      rw [htk, hdrop, List.append_nil] at hPfull
      have := rev_head_of_rstripSlash_self hrpD '/' (by rw [← hPfull]; rfl)
      exact this rfl
    · refine ⟨c, rest, rfl, ?_⟩
      have hcP : c ∈ P := by
        have : c ∈ P.drop 2 := by
          rw [hdrop]
          exact List.mem_cons_self c rest
        exact List.mem_of_mem_drop this
      have hcp1 : c ∈ p1 := by
        rw [hP] at hcP
        exact rstripSlash_mem hcP
      have hc1 := hp1props c hcp1
      by_cases hcs : c = '/'
      · exfalso
        have hPfull := List.take_append_drop 2 P
        rw [htk, hdrop] at hPfull
        subst hcs
        obtain ⟨t, hpt, _⟩ := rstripSlash_spec p1
        rw [← hP] at hpt
        obtain ⟨A, hA⟩ : ∃ A, cu = A ++ p1 ++ (b2 ++ b1) := by
          rcases hnlcase with ⟨htk2, _, h32⟩ | ⟨htk2, _, h32⟩
          · obtain ⟨TW, hTW⟩ : ∃ x, x = (u2.drop 2).takeWhile notDelim := ⟨_, rfl⟩
            refine ⟨a0 ++ u2.take 2 ++ TW, ?_⟩
            rw [ha0]
            have hsplit2 : TW ++ (u4 ++ b1) = u2.drop 2 := by
              rw [hTW, ← hb1, h32]
              exact List.takeWhile_append_dropWhile notDelim (u2.drop 2)
            calc a0 ++ u2 = a0 ++ (u2.take 2 ++ u2.drop 2) := by rw [List.take_append_drop]
              _ = a0 ++ (u2.take 2 ++ (TW ++ (u4 ++ b1))) := by rw [hsplit2]
              _ = a0 ++ u2.take 2 ++ TW ++ p1 ++ (b2 ++ b1) := by
                  rw [hb2]
                  simp [List.append_assoc]
          · refine ⟨a0, ?_⟩
            rw [ha0, ← h32, hb1, hb2]
            simp [List.append_assoc]
        have hcu3 : cu = (A) ++ '/' :: '/' :: '/' :: (rest ++ t ++ (b2 ++ b1)) := by
          rw [hA, hpt, ← hPfull]
          simp [List.append_assoc, List.cons_append]
        rw [hcu3, hasTriSlash_app] at htri
        exact absurd htri (by decide)
      · simp [notDelim, hcs, hc1.1, hc1.2.1]
  have hpcolD : s = [] → nl = [] → ∀ pre post, splitFirst ':' P = some (pre, post) →
      pre = [] ∨ ∃ c cs, pre = c :: cs ∧
        (c.isAlpha = false ∨ ∃ x ∈ pre, isSchemeChar x = false) := by
    intro hse hnle pre post hsp2
    obtain ⟨hPe, hniP⟩ := splitFirst_eq_some hsp2
    obtain ⟨hu2eq, hcolcase⟩ := hsnil hse
    obtain ⟨t, hpt, _⟩ := rstripSlash_spec p1
    rw [← hP] at hpt
    rcases hnlcase with ⟨htk2, hnl2, h32⟩ | ⟨htk2, hnl2, h32⟩
    · cases pre with
      | nil => exact Or.inl rfl
      | cons c cs =>
        right
        refine ⟨c, cs, rfl, Or.inr ⟨c, List.mem_cons_self c cs, ?_⟩⟩
        have hheadp1 : p1.head? = some c := by
          rw [hpt, head_append_left (by rw [hPe]; simp)]
          rw [hPe]
          rfl
        have := hheadslash h32 c hheadp1
        rw [this]
        rfl
    · rcases hcolcase with hnocol | ⟨pre0, post0, hsp0, hbad0⟩
      · exfalso
        apply hnocol
        apply hp1cu ':'
        rw [hpt, hPe]
        simp
      · have hcuP : cu = P ++ (t ++ b2 ++ b1) := by
          rw [← hu2eq, ← h32, hb1, hb2, hpt]
          simp [List.append_assoc]
        have hspcu : splitFirst ':' cu = some (pre, post ++ (t ++ b2 ++ b1)) := by
          rw [hcuP, hPe]
          rw [show (pre ++ ':' :: post) ++ (t ++ b2 ++ b1)
            = pre ++ ':' :: (post ++ (t ++ b2 ++ b1)) by simp]
          exact splitFirst_append _ hniP
        rw [hsp0] at hspcu
        have hpp := Option.some.inj hspcu
        have hpreeq : pre0 = pre := congrArg Prod.fst hpp
        rw [← hpreeq]
        exact hbad0
  have hpheadD : s = [] → nl = [] → ∀ c, P.head? = some c → 0x20 < c.toNat := by
    intro hse hnle c hc
    have hPne : P ≠ [] := by
      intro he
      rw [he] at hc
      exact absurd hc (by simp)
    obtain ⟨t, hpt, _⟩ := rstripSlash_spec p1
    rw [← hP] at hpt
    have hheadp1 : p1.head? = some c := by
      rw [hpt, head_append_left hPne]
      exact hc
    rcases hnlcase with ⟨htk2, hnl2, h32⟩ | ⟨htk2, hnl2, h32⟩
    · have := hheadslash h32 c hheadp1
      rw [this]
      decide
    · obtain ⟨hu2eq, _⟩ := hsnil hse
      have hp1ne : p1 ≠ [] := by
        intro he
        rw [he] at hheadp1
        exact absurd hheadp1 (by simp)
      have hcuhead : (pyClean l).head? = some c := by
        rw [hcu, ← hu2eq, ← h32, hb1, hb2, List.append_assoc, head_append_left hp1ne]
        exact hheadp1
      exact pyClean_head hcuhead
  rw [hnorm]
  exact normalize_unsplit_fix s nl P Q2 hsfacts hnlprops hpD hqD hrpD htriD hpcolD hpheadD


/-- Idempotence of `normalize_url` on the `urlOkC4` domain (shared by the C4
and C10 theorems). -/
theorem normalize_url_idem_ok {u : String} (h : urlOkC4 u = true) :
    normalize_url (normalize_url u) = normalize_url u := by
  simp only [urlOkC4, Bool.and_eq_true, Bool.not_eq_true'] at h
  have hsemi : (';' : Char) ∉ pyClean u.data := by simpa using h.1.1.1
  have htri : hasTriSlash (pyClean u.data) = false := h.2
  show (⟨normalizeUrlList (normalizeUrlList u.data)⟩ : String) = ⟨normalizeUrlList u.data⟩
  exact congrArg String.mk (normalizeUrlList_idem hsemi htri)

/-- C4 counterexample.  The claim asserts `normalize_url` is idempotent on
every URL string.  It is not: on `"http://example.com/a;/"` the first pass
keeps the path `/a;` (the `;`-params split looks only after the last `/`,
which here follows the `;`), while the second pass splits the now-final `;`
off as empty params and drops it, yielding a third, different string. -/
theorem c4_counterexample :
    normalize_url "http://example.com/a;/" = "http://example.com/a;" ∧
    normalize_url (normalize_url "http://example.com/a;/") = "http://example.com/a" ∧
    normalize_url (normalize_url "http://example.com/a;/")
      ≠ normalize_url "http://example.com/a;/" := by
  exact ⟨by decide, by decide, by decide⟩

/-- C4 as amended: `normalize_url` strips the tracking params, the fragment
and the trailing path slash, and it is idempotent on every URL whose cleaned
text contains no `';'`, no `'['` or `']'` and no run of three slashes — the
three syntax families on which a second parse reads the URL differently. -/
theorem c4_normalize_idempotent (u : String) (h : urlOkC4 u = true) :
    normalize_url (normalize_url u) = normalize_url u :=
  normalize_url_idem_ok h

/-- C4 witness: a concrete XING-style job URL with tracking params and a
fragment is in the idempotence domain and is normalized idempotently. -/
theorem c4_witness :
    urlOkC4 "https://www.xing.com/jobs/j-1?utm_source=x&ref=1&a=b#frag" = true ∧
    normalize_url (normalize_url "https://www.xing.com/jobs/j-1?utm_source=x&ref=1&a=b#frag")
      = normalize_url "https://www.xing.com/jobs/j-1?utm_source=x&ref=1&a=b#frag" :=
  ⟨by decide, c4_normalize_idempotent _ (by decide)⟩

theorem insertLoop_pending_urls (committed : List Job) (run_id : Option Nat) (method : String) :
    ∀ (ls : List JobListing) (pending : List Job) (count nid : Nat)
      (pout : List Job) (cout nout : Nat),
      insertLoop committed run_id method ls pending count nid = .ok (pout, cout, nout) →
      ∀ j ∈ pout, j ∈ pending ∨ ∃ li ∈ ls, j.url = normalize_url li.url := by
  intro ls
  induction ls with
  | nil =>
    intro pending count nid pout cout nout hres j hj
    rw [insertLoop] at hres
    have h2 := Except.ok.inj hres
    have hp : pending = pout := congrArg (fun x => x.1) h2
    rw [← hp] at hj
    exact Or.inl hj
  | cons l rest ih =>
    intro pending count nid pout cout nout hres j hj
    simp only [insertLoop] at hres
    rcases hfil : committed.filter (fun j0 => j0.url == normalize_url l.url) with _ | ⟨j1, jt⟩
    · rw [hfil] at hres
      rcases ih _ _ _ _ _ _ hres j hj with hmem | ⟨li, hli, hurl⟩
      · rcases List.mem_append.mp hmem with h1 | h1
        · exact Or.inl h1
        · right
          refine ⟨l, List.mem_cons_self _ _, ?_⟩
          rw [List.mem_singleton.mp h1]
          rfl
      · exact Or.inr ⟨li, List.mem_cons_of_mem _ hli, hurl⟩
    · rcases jt with _ | ⟨j2, jt2⟩
      · rw [hfil] at hres
        have hres2 : (if j1.id ≠ 0 then insertLoop committed run_id method rest pending count nid
            else insertLoop committed run_id method rest
              (pending ++ [rowOfListing l (normalize_url l.url) nid run_id method])
              (count + 1) (nid + 1))
            = Except.ok (pout, cout, nout) := hres
        split_ifs at hres2 with hid
        · rcases ih _ _ _ _ _ _ hres2 j hj with hmem | ⟨li, hli, hurl⟩
          · exact Or.inl hmem
          · exact Or.inr ⟨li, List.mem_cons_of_mem _ hli, hurl⟩
        · rcases ih _ _ _ _ _ _ hres2 j hj with hmem | ⟨li, hli, hurl⟩
          · rcases List.mem_append.mp hmem with h1 | h1
            · exact Or.inl h1
            · right
              refine ⟨l, List.mem_cons_self _ _, ?_⟩
              rw [List.mem_singleton.mp h1]
              rfl
          · exact Or.inr ⟨li, List.mem_cons_of_mem _ hli, hurl⟩
      · rw [hfil] at hres
        exact Except.noConfusion hres

/-- C10 counterexample.  The claim asserts every persisted URL is a fixpoint
of `normalize_url`.  Storing a listing for `"https://h.test/p;/"` persists
`"https://h.test/p;"`, which normalizes further to `"https://h.test/p"`:
if the same job later arrives under the already-stripped URL, the existence
check compares `"https://h.test/p"` against the stored `"https://h.test/p;"`
and misses, so the job is stored twice. -/
theorem c10_counterexample :
    c10StoredUrls = ["https://h.test/p;"] ∧
    normalize_url "https://h.test/p;" ≠ "https://h.test/p;" := by
  exact ⟨by decide, by decide⟩

/-- C10 as amended: when every incoming listing URL lies in the `urlOkC4`
idempotence domain, `_insert_listings` preserves the invariant that every
stored URL is a fixpoint of `normalize_url` (on the error path nothing is
persisted, so the invariant is trivially kept). -/
theorem c10_fixpoint_invariant (db : Db) (listings : List JobListing)
    (run_id : Option Nat) (method : String) (c : Nat) (db2 : Db)
    (hinv : ∀ j ∈ db.jobs, normalize_url j.url = j.url)
    (hok : ∀ li ∈ listings, urlOkC4 li.url = true)
    (hres : _insert_listings db listings run_id method = Except.ok (c, db2)) :
    ∀ j ∈ db2.jobs, normalize_url j.url = j.url := by
  intro j hj
  rw [_insert_listings] at hres
  cases hloop : insertLoop db.jobs run_id method listings [] 0 db.nextId with
  | error e =>
    rw [hloop] at hres
    exact Except.noConfusion hres
  | ok trip =>
    obtain ⟨pending, count, nid⟩ := trip
    rw [hloop] at hres
    have hres2 : (if count ≠ 0 then
        (if pendingUrlsOk db.jobs pending then Except.ok (count, (⟨db.jobs ++ pending, nid⟩ : Db))
         else Except.error "IntegrityError: duplicate key value violates unique constraint")
      else Except.ok (count, db)) = Except.ok (c, db2) := hres
    split_ifs at hres2 with hc hpok
    · have h2 := Except.ok.inj hres2
      have hdb2 : db2 = ⟨db.jobs ++ pending, nid⟩ := (congrArg Prod.snd h2).symm
      rw [hdb2] at hj
      rcases List.mem_append.mp hj with h1 | h1
      · exact hinv j h1
      · rcases insertLoop_pending_urls db.jobs run_id method listings [] 0 db.nextId
          pending count nid hloop j h1 with hm | ⟨li, hli, hurl⟩
        · exact absurd hm (List.not_mem_nil j)
        · rw [hurl]
          exact normalize_url_idem_ok (hok li hli)
    · have h2 := Except.ok.inj hres2
      have hdb2 : db2 = db := (congrArg Prod.snd h2).symm
      rw [hdb2] at hj
      exact hinv j hj

/-- C10 witness: inserting a listing whose URL is in the idempotence domain
into the empty table yields a table whose stored URL is a fixpoint. -/
theorem c10_witness :
    ∃ db2, _insert_listings emptyDb [c10GoodListing] none "css" = Except.ok (1, db2) ∧
      ∀ j ∈ db2.jobs, normalize_url j.url = j.url := by
  refine ⟨⟨[rowOfListing c10GoodListing (normalize_url c10GoodListing.url) 1 none "css"], 2⟩,
    rfl, ?_⟩
  exact c10_fixpoint_invariant emptyDb [c10GoodListing] none "css" 1 _
    (by simp [emptyDb]) (by decide) rfl

end JobSearch
